import Mathlib

/-!
Verification of the GOAP engine (kelindar/goap): a shallow embedding of the
rule lexicon, the packed-entry state container and the A* planner, together
with theorems settling the specification claims.

Modelling conventions, used uniformly below.

* Machine integers (`uint32`, `uint64`) are `Nat` with explicit `% 2 ^ 32`
  where the source truncates.
* `float32` values are exact rationals; every floating-point operation of
  the source is followed by `fl32`, the IEEE-754 binary32
  round-to-nearest-even rounding function, defined below for the normal
  range (the engine's values are 0 or lie well inside it).  `uint32(f)`
  for `f ≥ 0` is the floor.  Executable arithmetic uses `Frac`, unreduced
  integer pairs (core `Rat` cannot be evaluated by the kernel); the
  bridge `Frac.val` interprets them in `ℚ` and `fl32F_val` proves the
  executable rounding agrees with the `ℚ`-level `fl32`.
* The external `xxh3.HashString` (an imported library, not repository
  code) is replaced by an injective-on-short-keys stand-in: the base-256
  value of the lowercased key, reduced to the `uint32` range exactly as
  the source truncates the 64-bit hash to `fact`'s `uint32`.  The
  repository uses the hash only through equality and ordering of `fact`
  values, so nothing in the claims depends on the concrete hash values.
* `strconv.ParseFloat(s, 32)` (Go standard library, external) is modelled
  on its decimal grammar: optional sign, digits with at most one dot and
  at least one digit, optional decimal exponent; the hexadecimal and
  inf/nan forms, range errors and digit underscores are outside every
  state the claims mention and are not modelled.
-/

set_option maxRecDepth 100000

/-! ## IEEE-754 binary32 rounding, specification level (`ℚ`) -/

/-- Round a rational to the nearest integer, ties to even. -/
def roundNE (q : ℚ) : ℤ :=
  let f := ⌊q⌋
  let r := q - (f : ℚ)
  if r < 1/2 then f
  else if 1/2 < r then f + 1
  else if f % 2 = 0 then f else f + 1

/-- Least `k` with `1 ≤ q * 2 ^ k` (fuel-bounded scan; `q > 0`). -/
def smallExp : ℚ → ℕ → ℕ
  | _, 0 => 0
  | q, n + 1 => if 1 ≤ q then 0 else smallExp (2 * q) n + 1

/-- Greatest `k` with `2 ^ k ≤ q` (fuel-bounded scan; `q ≥ 1`). -/
def bigExp : ℚ → ℕ → ℕ
  | _, 0 => 0
  | q, n + 1 => if q < 2 then 0 else bigExp (q / 2) n + 1

/-- Binary exponent `⌊log₂ q⌋` of a positive rational in the engine's range. -/
def qlog2 (q : ℚ) : ℤ :=
  if 1 ≤ q then (bigExp q 300 : ℤ) else -(smallExp q 300 : ℤ)

/-- Round a positive rational to the nearest binary32 value (24-bit
significand, round to nearest, ties to even). -/
def fl32Pos (q : ℚ) : ℚ :=
  ((roundNE (q * (2 : ℚ) ^ (23 - qlog2 q)) : ℚ)) * (2 : ℚ) ^ (qlog2 q - 23)

/-- IEEE-754 binary32 rounding of a rational (normal range; 0 maps to 0). -/
def fl32 (q : ℚ) : ℚ :=
  if q = 0 then 0 else if q < 0 then -(fl32Pos (-q)) else fl32Pos q

/-! ## Executable exact rationals -/

/-- Unreduced integer-pair rationals (numerator, positive denominator):
exact arithmetic the kernel can evaluate.  Every constructor below keeps
the denominator positive; `pos` states it. -/
structure Frac where
  n : ℤ
  d : ℕ
deriving DecidableEq, Repr

namespace Frac

/-- Embed an integer. -/
def ofInt (z : ℤ) : Frac := ⟨z, 1⟩

/-- The rational value. -/
def val (a : Frac) : ℚ := (a.n : ℚ) / (a.d : ℚ)

/-- Well-formedness: positive denominator. -/
def pos (a : Frac) : Prop := 0 < a.d

def add (a b : Frac) : Frac := ⟨a.n * b.d + b.n * a.d, a.d * b.d⟩

def sub (a b : Frac) : Frac := ⟨a.n * b.d - b.n * a.d, a.d * b.d⟩

def mul (a b : Frac) : Frac := ⟨a.n * b.n, a.d * b.d⟩

def neg (a : Frac) : Frac := ⟨-a.n, a.d⟩

/-- Divide by a natural number. -/
def divNat (a : Frac) (m : ℕ) : Frac := ⟨a.n, a.d * m⟩

/-- `a ≤ b` by cross-multiplication (valid for positive denominators). -/
def le (a b : Frac) : Prop := a.n * b.d ≤ b.n * a.d

/-- `a < b` by cross-multiplication (valid for positive denominators). -/
def lt (a b : Frac) : Prop := a.n * b.d < b.n * a.d

/-- Value equality by cross-multiplication (valid for positive
denominators). -/
def qeq (a b : Frac) : Prop := a.n * b.d = b.n * a.d

instance (a b : Frac) : Decidable (le a b) := inferInstanceAs (Decidable (_ ≤ _))
instance (a b : Frac) : Decidable (lt a b) := inferInstanceAs (Decidable (_ < _))
instance (a b : Frac) : Decidable (qeq a b) := inferInstanceAs (Decidable (_ = _))

/-- Floor of the value (floor division; denominators are positive). -/
def floor (a : Frac) : ℤ := Int.fdiv a.n a.d

/-- Multiply by `2 ^ k` for an integer `k`. -/
def scale2 (a : Frac) (k : ℤ) : Frac :=
  if 0 ≤ k then ⟨a.n * 2 ^ k.toNat, a.d⟩ else ⟨a.n, a.d * 2 ^ (-k).toNat⟩

end Frac

/-! ## IEEE-754 binary32 rounding, executable level -/

/-- Executable `roundNE`. -/
def roundNEF (a : Frac) : ℤ :=
  let f := a.floor
  let twice := 2 * (a.n - f * a.d)
  if twice < (a.d : ℤ) then f
  else if (a.d : ℤ) < twice then f + 1
  else if f % 2 = 0 then f else f + 1

/-- Executable `smallExp`. -/
def smallExpF : Frac → ℕ → ℕ
  | _, 0 => 0
  | q, m + 1 => if (q.d : ℤ) ≤ q.n then 0 else smallExpF ⟨2 * q.n, q.d⟩ m + 1

/-- Executable `bigExp`. -/
def bigExpF : Frac → ℕ → ℕ
  | _, 0 => 0
  | q, m + 1 => if q.n < 2 * (q.d : ℤ) then 0 else bigExpF ⟨q.n, 2 * q.d⟩ m + 1

/-- Executable `qlog2`. -/
def qlog2F (q : Frac) : ℤ :=
  if (q.d : ℤ) ≤ q.n then (bigExpF q 300 : ℤ) else -(smallExpF q 300 : ℤ)

/-- Executable `fl32Pos`. -/
def fl32PosF (q : Frac) : Frac :=
  let e := qlog2F q
  Frac.scale2 (Frac.ofInt (roundNEF (Frac.scale2 q (23 - e)))) (e - 23)

/-- Executable `fl32`. -/
def fl32F (q : Frac) : Frac :=
  if q.n = 0 then Frac.ofInt 0
  else if q.n < 0 then Frac.neg (fl32PosF (Frac.neg q))
  else fl32PosF q

/-! ## Operators and expressions (`rules.go`) -/

/-- `opEqual`: operator code 0 (`=`). -/
def opEqual : ℕ := 0

/-- `opIncrement`: operator code 1 (`+`). -/
def opIncrement : ℕ := 1

/-- `opDecrement`: operator code 2 (`-`). -/
def opDecrement : ℕ := 2

/-- `opLess`: operator code 3 (`<`). -/
def opLess : ℕ := 3

/-- `opGreater`: operator code 4 (`>`). -/
def opGreater : ℕ := 4

/-- `valueMax`: 10000 hundredths, i.e. 100.00 percent. -/
def valueMax : ℕ := 10000

/-- `exprOf(op, value float32) expr`: clamp `value` into [0, 100], then pack
`uint32(op)<<28 | uint32(value*100)` (the multiplication is a float32
operation, the conversion truncates). -/
def exprOf (op : ℕ) (value : Frac) : ℕ :=
  let v : Frac :=
    if value.lt (Frac.ofInt 0) then Frac.ofInt 0
    else if (Frac.ofInt 100).lt value then Frac.ofInt 100
    else value
  op * 2 ^ 28 + Int.toNat (fl32F (v.mul (Frac.ofInt 100))).floor

namespace Expr

/-- `expr.Operator()`: the high 4 bits (`e >> 28` on `uint32`). -/
def Operator (e : ℕ) : ℕ := e % 2 ^ 32 / 2 ^ 28

/-- `expr.Value()`: the low 16 bits (`e & 0xFFFF`). -/
def Value (e : ℕ) : ℕ := e % 2 ^ 16

/-- `expr.Percent()`: `100` when `Value() ≥ valueMax`, else
`float32(Value())/100`. -/
def Percent (e : ℕ) : Frac :=
  if valueMax ≤ Value e then Frac.ofInt 100 else fl32F ⟨(Value e : ℤ), 100⟩

end Expr

/-! ## Packed rule entries -/

/-- `ruleOf(f, e)` (named `elemOf` in earlier revisions, same body):
`rule(f)<<32 | rule(e)`. -/
def ruleOf (f e : ℕ) : ℕ := f * 2 ^ 32 + e % 2 ^ 32

namespace Rule

/-- `rule.Fact()`: the high 32 bits. -/
def Fact (r : ℕ) : ℕ := r / 2 ^ 32

/-- `rule.Expr()`: the low 32 bits. -/
def Expr (r : ℕ) : ℕ := r % 2 ^ 32

end Rule

/-- Modelled from the spec: `rule.Hash()` is absent from the available
source (only its call sites in `store`, `Del` and the hash tests are);
the spec gives the mix `h = fact ^ (expr · 0x9E3779B1 + 0xB)` on 32 bits. -/
def ruleHash (r : ℕ) : ℕ :=
  Nat.xor (Rule.Fact r % 2 ^ 32) ((Rule.Expr r * 0x9E3779B1 + 0xB) % 2 ^ 32)

/-! ## Facts and the rule parser -/

/-- `factOf`: stand-in for `uint32(xxh3.HashString(strings.ToLower(s)))` —
base-256 value of the lowercased key, reduced to [1, 2^32) (the real hash
of a parseable key is nonzero with overwhelming probability and the
engine's `Del` relies on real entries sorting before the zero slot).
Injective on the short keys used in this development; the engine only
compares and orders facts. -/
def factOf (s : String) : ℕ :=
  (s.data.foldl
      (fun a c => a * 256 + (if 'A' ≤ c && c ≤ 'Z' then c.toNat + 32 else c.toNat) % 256) 0)
    % 0xFFFFFFFF + 1

/-- Key characters: `[a-zA-Z_]`. -/
def isKeyChar (c : Char) : Bool :=
  ('a' ≤ c && c ≤ 'z') || ('A' ≤ c && c ≤ 'Z') || c = '_'

/-- Digit test for the float grammar. -/
def isDigitCh (c : Char) : Bool := '0' ≤ c && c ≤ '9'

/-- Mantissa scanner: consumes digits and at most one dot; returns the
accumulated digits' value, the count of fractional digits, the count of all
digits, and the unconsumed rest. -/
def mantAux : List Char → ℕ → ℕ → ℕ → Bool → (ℕ × ℕ × ℕ × List Char)
  | [], acc, fr, nd, _ => (acc, fr, nd, [])
  | c :: t, acc, fr, nd, seenDot =>
    if isDigitCh c then
      mantAux t (acc * 10 + (c.toNat - '0'.toNat)) (if seenDot then fr + 1 else fr) (nd + 1) seenDot
    else if c = '.' && !seenDot then
      mantAux t acc fr nd true
    else
      (acc, fr, nd, c :: t)

/-- Exponent scanner: `e`/`E`, optional sign, at least one digit,
consuming the whole rest. -/
def expAux (cs : List Char) : Option ℤ :=
  match cs with
  | [] => some 0
  | e :: t =>
    if e = 'e' || e = 'E' then
      let st : ℤ × List Char :=
        match t with
        | '+' :: u => (1, u)
        | '-' :: u => (-1, u)
        | u => (1, u)
      match st.2 with
      | [] => none
      | _ =>
        if st.2.all isDigitCh then
          some (st.1 * (st.2.foldl (fun a c => a * 10 + (c.toNat - '0'.toNat)) 0 : ℕ))
        else none
    else none

/-- `strconv.ParseFloat(s, 32)` on the decimal grammar, returning the exact
decimal value (the caller rounds with `fl32F`). -/
def goParseFloat (s : String) : Option Frac :=
  let cs := s.data
  let sc : ℤ × List Char :=
    match cs with
    | '+' :: t => (1, t)
    | '-' :: t => (-1, t)
    | t => (1, t)
  let m := mantAux sc.2 0 0 0 false
  if m.2.2.1 = 0 then none
  else
    match expAux m.2.2.2 with
    | none => none
    | some ex =>
      let base : Frac := ⟨sc.1 * m.1, 10 ^ m.2.1⟩
      if 0 ≤ ex then some (base.mul (Frac.ofInt (10 ^ ex.toNat)))
      else some (base.divNat (10 ^ (-ex).toNat))

/-- Structured parse errors; each constructor carries the offending rule
string, mirroring the `fmt.Errorf` messages of `parseRule`. -/
inductive ParseErr where
  | emptyString : ParseErr
  | invalidRule : String → ParseErr
  | invalidOperator : Char → String → ParseErr
  | invalidValue : String → String → ParseErr
deriving DecidableEq, Repr

/-- Operator codes of the `parseOperator` label (`[=+-<>]`). -/
def opCodeOf (c : Char) : Option ℕ :=
  if c = '=' then some opEqual
  else if c = '+' then some opIncrement
  else if c = '-' then some opDecrement
  else if c = '<' then some opLess
  else if c = '>' then some opGreater
  else none

/-- `parseRule(s) (fact, expr, error)`: leading `!` forces value 0, a key of
`[a-zA-Z_]+`, an optional operator `[=+-<>]` with a float value.  The
`value < valueMin || value > valueMax` test of the source compares the
*default* `value` variable (100, or 0 after `!`), never the parsed `val`,
and is embedded as written. -/
def parseRule (s : String) : Except ParseErr (ℕ × ℕ) :=
  if s.data.length = 0 then .error .emptyString
  else
    let bang := s.data.head? = some '!'
    if bang && s.data.length = 1 then .error (.invalidRule s)
    else
      let value : Frac := if bang then Frac.ofInt 0 else Frac.ofInt 100
      let body := if bang then s.data.tail else s.data
      let key := body.takeWhile (fun c => isKeyChar c)
      let tail := body.dropWhile (fun c => isKeyChar c)
      match tail with
      | [] => .ok (factOf (String.mk key), exprOf opEqual value)
      | c :: rest =>
        match opCodeOf c with
        | none => .error (.invalidOperator c s)
        | some op =>
          let valueStr := String.mk rest
          match goParseFloat valueStr with
          | none => .error (.invalidValue valueStr s)
          | some val =>
            if value.lt (Frac.ofInt 0) || (Frac.ofInt (valueMax : ℤ)).lt value then
              .error (.invalidValue valueStr s)
            else .ok (factOf (String.mk key), exprOf op (fl32F val))

example : parseRule "hp" = .ok (factOf "hp", exprOf opEqual (Frac.ofInt 100)) := by rfl
example : parseRule "!hp" = .ok (factOf "hp", exprOf opEqual (Frac.ofInt 0)) := by rfl
example : Expr.Value (exprOf opEqual (Frac.ofInt 100)) = 10000 := by decide

instance {ε α : Type} [DecidableEq ε] [DecidableEq α] : DecidableEq (Except ε α) := fun x y =>
  match x, y with
  | .ok a, .ok b =>
    if h : a = b then .isTrue (h ▸ rfl) else .isFalse (fun he => absurd (Except.ok.inj he) h)
  | .error a, .error b =>
    if h : a = b then .isTrue (h ▸ rfl) else .isFalse (fun he => absurd (Except.error.inj he) h)
  | .ok _, .error _ => .isFalse (fun he => Except.noConfusion he)
  | .error _, .ok _ => .isFalse (fun he => Except.noConfusion he)

/-! ## Engine errors (`fmt.Errorf` values of `state.go` / planner) -/

/-- Engine error values: parse errors, the three match/apply error shapes
(each carrying the fact and expressions that the Go message interpolates),
the planner's no-plan error, and fuel exhaustion of the loop model (the Go
loop has no fuel; theorems never treat `fuelOut` as a source behaviour). -/
inductive GoapErr where
  | parse : ParseErr → GoapErr
  | invalidState : ℕ → ℕ → ℕ → GoapErr
  | invalidOperator : ℕ → ℕ → GoapErr
  | invalidPredictOp : ℕ → ℕ → GoapErr
  | noPlan : GoapErr
  | fuelOut : GoapErr
deriving DecidableEq, Repr

/-! ## The state container (`state.go`, current revision: `linearCutoff = 0`,
entries sorted descending by fact, binary search via `sort.Search`) -/

/-- `State`: cached 32-bit hash `hx` plus the packed entries `vx`.  The
planner-node fields live in the separate planner section. -/
structure StateV where
  hx : ℕ
  vx : List ℕ
deriving DecidableEq, Repr

/-- Descending-by-fact ordering used by `State.Less` (`s.vx[i].Fact() >
s.vx[j].Fact()`), as the weak relation a comparison sort realises. -/
def descRel (a b : ℕ) : Prop := Rule.Fact b ≤ Rule.Fact a

instance : DecidableRel descRel := fun _ _ => Nat.decLe _ _

instance : IsTotal ℕ descRel :=
  ⟨fun a b => (Nat.le_total (Rule.Fact b) (Rule.Fact a)).elim Or.inl Or.inr⟩

instance : IsTrans ℕ descRel := ⟨fun _ _ _ h1 h2 => Nat.le_trans h2 h1⟩

/-- `sort.Sort(s)` with `State.Less`: a comparison sort by descending fact
(the source's sort algorithm is `sort.Sort`; on the fact-unique lists the
container maintains, every comparison sort produces the same list). -/
def sortRules (l : List ℕ) : List ℕ := List.insertionSort descRel l

/-- Binary-search core of Go's `sort.Search` (`h := (i+j)/2`, halve), with
fuel (always called with fuel > j - i, so the fuel case is unreachable). -/
def searchAux (f : ℕ → Bool) : ℕ → ℕ → ℕ → ℕ
  | 0, i, _ => i
  | fuel + 1, i, j =>
    if i < j then
      let m := (i + j) / 2
      if f m then searchAux f fuel i m else searchAux f fuel (m + 1) j
    else i

/-- Go `sort.Search(n, f)`. -/
def goSearch (n : ℕ) (f : ℕ → Bool) : ℕ := searchAux f (n + 1) 0 n

/-- `findLinear`: scan for the fact, `(0, false)` when absent. -/
def findLinearAux (key : ℕ) : List ℕ → ℕ → ℕ × Bool
  | [], _ => (0, false)
  | r :: t, i => if Rule.Fact r = key then (i, true) else findLinearAux key t (i + 1)

namespace StateV

/-- `State.find`: linear scan at or below `linearCutoff = 0` (i.e. only the
empty state), otherwise `sort.Search` for the first index with
`Fact() <= key` on the descending list, then the equality check. -/
def find (s : StateV) (key : ℕ) : ℕ × Bool :=
  if s.vx.length ≤ 0 then findLinearAux key s.vx 0
  else
    let x := goSearch s.vx.length (fun i => Rule.Fact (s.vx.getD i 0) ≤ key)
    if x < s.vx.length && (Rule.Fact (s.vx.getD x 0) == key) then (x, true) else (x, false)

/-- `State.store`: overwrite in place when the fact exists (XOR out the old
entry hash, XOR in the new), else XOR in, append and re-sort. -/
def store (s : StateV) (k v : ℕ) : StateV :=
  let r := ruleOf k v
  let fr := s.find k
  if fr.2 then
    { hx := Nat.xor (Nat.xor s.hx (ruleHash (s.vx.getD fr.1 0))) (ruleHash r),
      vx := s.vx.set fr.1 r }
  else
    { hx := Nat.xor s.hx (ruleHash r), vx := sortRules (s.vx ++ [ruleOf k v]) }

/-- `State.Add`: parse then store. -/
def Add (s : StateV) (rule : String) : Except ParseErr StateV :=
  match parseRule rule with
  | .error e => .error e
  | .ok kv => .ok (s.store kv.1 kv.2)

/-- `State.Del`: parse; if the fact is present, XOR out its hash, zero the
slot, re-sort (the zero entry sinks to the end) and trim the last slot. -/
def Del (s : StateV) (rule : String) : Except ParseErr StateV :=
  match parseRule rule with
  | .error e => .error e
  | .ok kv =>
    let fr := s.find kv.1
    if fr.2 then
      .ok { hx := Nat.xor s.hx (ruleHash (s.vx.getD fr.1 0)),
            vx := (sortRules (s.vx.set fr.1 0)).dropLast }
    else .ok s

/-- `State.load`: the stored expression, or the virtual `= 0` when absent. -/
def load (s : StateV) (f : ℕ) : ℕ :=
  let fr := s.find f
  if fr.2 then Rule.Expr (s.vx.getD fr.1 0) else exprOf opEqual (Frac.ofInt 0)

end StateV

/-- Merge loop of `State.Match` over the descending entry lists: first
argument the pattern (`needs.vx`), second the state (`state.vx`). -/
def matchAux : List ℕ → List ℕ → Except GoapErr Bool
  | [], _ => .ok true
  | _ :: _, [] => .ok false
  | n :: ns, t :: ts =>
    let f0 := Rule.Fact n
    let f1 := Rule.Fact t
    if f1 = f0 then
      let e0 := Rule.Expr n
      let e1 := Rule.Expr t
      if Expr.Operator e1 ≠ opEqual then .error (.invalidState f1 e0 e1)
      else if Expr.Operator e0 = opEqual then
        if Expr.Value e1 = Expr.Value e0 then matchAux ns ts else .ok false
      else if Expr.Operator e0 = opLess then
        if Expr.Value e1 < Expr.Value e0 then matchAux ns ts else .ok false
      else if Expr.Operator e0 = opGreater then
        if Expr.Value e0 < Expr.Value e1 then matchAux ns ts else .ok false
      else .error (.invalidOperator f1 e0)
    else if f0 < f1 then matchAux (n :: ns) ts
    else .ok false

/-- `state.Match(needs)`: does every pattern entry hold in the state?  A
linear merge over the two descending lists; a pattern fact absent from the
state ends the merge with `false`. -/
def StateV.Match (state needs : StateV) : Except GoapErr Bool :=
  matchAux needs.vx state.vx

/-- Body of `State.Apply`: fold the effect entries in list order; `=`
overwrites, `+`/`-` load the current value (virtual `= 0` when absent,
which must carry operator `=`) and store the float32 sum/difference through
the clamping `exprOf`. -/
def applyAux : StateV → List ℕ → Except GoapErr StateV
  | s, [] => .ok s
  | s, elem :: rest =>
    let f := Rule.Fact elem
    let e := Rule.Expr elem
    let x := s.load f
    if Expr.Operator x ≠ opEqual then .error (.invalidState f e x)
    else if Expr.Operator e = opEqual then applyAux (s.store f e) rest
    else if Expr.Operator e = opIncrement then
      applyAux (s.store f (exprOf (Expr.Operator x) (fl32F ((Expr.Percent x).add (Expr.Percent e))))) rest
    else if Expr.Operator e = opDecrement then
      applyAux (s.store f (exprOf (Expr.Operator x) (fl32F ((Expr.Percent x).sub (Expr.Percent e))))) rest
    else .error (.invalidPredictOp f e)

/-- `state.Apply(effects)`: mutate the state by every effect entry. -/
def StateV.Apply (s effects : StateV) : Except GoapErr StateV :=
  applyAux s effects.vx

/-- Accumulation loop of `State.Distance` (`diff += x - y`, float32). -/
def distAux (s : StateV) : List ℕ → Frac → Frac
  | [], diff => diff
  | elem :: rest, diff =>
    let y := Expr.Percent (Rule.Expr elem)
    let x := Expr.Percent (s.load (Rule.Fact elem))
    if y.lt x then distAux s rest (fl32F (diff.add (fl32F (x.sub y))))
    else if x.lt y then distAux s rest (fl32F (diff.add (fl32F (y.sub x))))
    else distAux s rest diff

/-- `state.Distance(goal)`: sum of absolute percent differences over the
goal's entries only (the state's own extra facts are not visited). -/
def StateV.Distance (s goal : StateV) : Frac := distAux s goal.vx (Frac.ofInt 0)

/-- `state.Hash()`: the cached hash, O(1). -/
def StateV.Hash (s : StateV) : ℕ := s.hx

/-- `state.Equals(other)`: cached hashes agree. -/
def StateV.Equals (s other : StateV) : Bool := s.Hash == other.Hash

/-- `state.Clone()`: fresh state with copied entries and the same cached
hash (the pooled-array aliasing aspect is modelled in the pool section). -/
def StateV.Clone (s : StateV) : StateV := { hx := s.hx, vx := s.vx }

/-- The empty state a pool acquisition hands out (`hx = 0`, no entries). -/
def emptyState : StateV := { hx := 0, vx := [] }

/-- `StateOf(rules...)`: fold `Add` from the empty state; the Go
constructor panics on a parse error, modelled as `Except`. -/
def StateOf (rules : List String) : Except ParseErr StateV :=
  rules.foldlM (fun s r => StateV.Add s r) emptyState

example :
    (do
      let s1 ← StateOf ["A", "B", "C"]
      let s2 ← StateOf ["A", "B"]
      pure (s1.Match s2, s2.Match s1) : Except ParseErr _) =
    .ok (.ok true, .ok false) := by decide

example :
    (do
      let s1 ← StateOf ["A=50", "B=100"]
      let s2 ← StateOf ["A>10", "B=100"]
      pure (s1.Match s2) : Except ParseErr _) = .ok (.ok true) := by decide

/-! ## Transfer lemmas: `Frac` computes the `ℚ` specification -/

namespace Frac

theorem den_ne (a : Frac) (h : a.pos) : ((a.d : ℚ)) ≠ 0 := by
  have h0 : (0 : ℚ) < (a.d : ℚ) := by exact_mod_cast h
  exact h0.ne'

theorem den_pos_q (a : Frac) (h : a.pos) : (0 : ℚ) < (a.d : ℚ) := by exact_mod_cast h

theorem val_ofInt (z : ℤ) : (ofInt z).val = (z : ℚ) := by
  simp [ofInt, val]

theorem pos_ofInt (z : ℤ) : (ofInt z).pos := Nat.zero_lt_one

theorem val_add (a b : Frac) (ha : a.pos) (hb : b.pos) : (a.add b).val = a.val + b.val := by
  have h1 := a.den_ne ha
  have h2 := b.den_ne hb
  simp only [add, val]
  push_cast
  field_simp

theorem pos_add (a b : Frac) (ha : a.pos) (hb : b.pos) : (a.add b).pos :=
  Nat.mul_pos ha hb

theorem val_sub (a b : Frac) (ha : a.pos) (hb : b.pos) : (a.sub b).val = a.val - b.val := by
  have h1 := a.den_ne ha
  have h2 := b.den_ne hb
  simp only [sub, val]
  push_cast
  field_simp
  ring

theorem pos_sub (a b : Frac) (ha : a.pos) (hb : b.pos) : (a.sub b).pos :=
  Nat.mul_pos ha hb

theorem val_mul (a b : Frac) (ha : a.pos) (hb : b.pos) : (a.mul b).val = a.val * b.val := by
  have h1 := a.den_ne ha
  have h2 := b.den_ne hb
  simp only [mul, val]
  push_cast
  field_simp

theorem pos_mul (a b : Frac) (ha : a.pos) (hb : b.pos) : (a.mul b).pos :=
  Nat.mul_pos ha hb

theorem val_neg (a : Frac) : (Frac.neg a).val = -a.val := by
  simp [Frac.neg, val, neg_div]

theorem pos_neg (a : Frac) (ha : a.pos) : (Frac.neg a).pos := ha

theorem val_divNat (a : Frac) (m : ℕ) (ha : a.pos) (hm : 0 < m) :
    (a.divNat m).val = a.val / (m : ℚ) := by
  have h1 := a.den_ne ha
  have h2 : ((m : ℚ)) ≠ 0 := by
    have : (0 : ℚ) < (m : ℚ) := by exact_mod_cast hm
    exact this.ne'
  simp only [divNat, val]
  push_cast
  field_simp

theorem pos_divNat (a : Frac) (m : ℕ) (ha : a.pos) (hm : 0 < m) : (a.divNat m).pos :=
  Nat.mul_pos ha hm

theorem le_iff (a b : Frac) (ha : a.pos) (hb : b.pos) : a.le b ↔ a.val ≤ b.val := by
  rw [le, val, val, div_le_div_iff (a.den_pos_q ha) (b.den_pos_q hb)]
  constructor
  · intro h; exact_mod_cast h
  · intro h; exact_mod_cast h

theorem lt_iff (a b : Frac) (ha : a.pos) (hb : b.pos) : a.lt b ↔ a.val < b.val := by
  rw [lt, val, val, div_lt_div_iff (a.den_pos_q ha) (b.den_pos_q hb)]
  constructor
  · intro h; exact_mod_cast h
  · intro h; exact_mod_cast h

theorem qeq_iff (a b : Frac) (ha : a.pos) (hb : b.pos) : a.qeq b ↔ a.val = b.val := by
  rw [qeq, val, val, div_eq_div_iff (a.den_ne ha) (b.den_ne hb)]
  constructor
  · intro h; exact_mod_cast h
  · intro h; exact_mod_cast h

theorem floor_val (a : Frac) (ha : a.pos) : a.floor = ⌊a.val⌋ := by
  rw [floor, val, Rat.floor_intCast_div_natCast,
    Int.fdiv_eq_ediv _ (by exact_mod_cast Nat.zero_le a.d)]

theorem val_scale2 (a : Frac) (k : ℤ) (ha : a.pos) :
    (a.scale2 k).val = a.val * (2 : ℚ) ^ k := by
  have h1 := a.den_ne ha
  rw [scale2]
  by_cases hk : 0 ≤ k
  · rw [if_pos hk, val, val]
    have hp : (2 : ℚ) ^ k = (2 : ℚ) ^ k.toNat := by
      rw [← zpow_natCast, Int.toNat_of_nonneg hk]
    rw [hp]
    push_cast
    ring
  · rw [if_neg hk, val, val]
    have hp : (2 : ℚ) ^ k = ((2 : ℚ) ^ (-k).toNat)⁻¹ := by
      rw [← zpow_natCast, Int.toNat_of_nonneg (by omega : 0 ≤ -k), ← zpow_neg, neg_neg]
    have h3 : ((2 : ℚ) ^ (-k).toNat) ≠ 0 := by positivity
    rw [hp]
    push_cast
    field_simp

theorem pos_scale2 (a : Frac) (k : ℤ) (ha : a.pos) : (a.scale2 k).pos := by
  rw [scale2]
  by_cases hk : 0 ≤ k
  · rw [if_pos hk]; exact ha
  · rw [if_neg hk]; exact Nat.mul_pos ha (Nat.pos_pow_of_pos _ (by omega))

end Frac

theorem roundNEF_val (a : Frac) (ha : a.pos) : roundNEF a = roundNE a.val := by
  have hd : (0 : ℚ) < (a.d : ℚ) := a.den_pos_q ha
  have hfl : a.floor = ⌊a.val⌋ := a.floor_val ha
  have hr : a.val - (⌊a.val⌋ : ℚ) = ((a.n - ⌊a.val⌋ * (a.d : ℤ) : ℤ) : ℚ) / (a.d : ℚ) := by
    rw [Frac.val]
    push_cast
    field_simp
    ring
  have key : ∀ z : ℤ, ((z : ℚ) / (a.d : ℚ) < 1/2 ↔ 2 * z < (a.d : ℤ)) ∧
      (1/2 < (z : ℚ) / (a.d : ℚ) ↔ (a.d : ℤ) < 2 * z) := by
    intro z
    constructor
    · rw [div_lt_iff hd]
      constructor
      · intro h
        have h2 : (2 * z : ℚ) < (a.d : ℚ) := by push_cast; linarith
        exact_mod_cast h2
      · intro h
        have h2 : (2 * z : ℚ) < (a.d : ℚ) := by exact_mod_cast h
        push_cast at h2
        linarith
    · rw [lt_div_iff hd]
      constructor
      · intro h
        have h2 : (a.d : ℚ) < (2 * z : ℚ) := by push_cast; linarith
        exact_mod_cast h2
      · intro h
        have h2 : (a.d : ℚ) < (2 * z : ℚ) := by exact_mod_cast h
        push_cast at h2
        linarith
  have H1 : a.val - (⌊a.val⌋ : ℚ) < 1/2 ↔ 2 * (a.n - ⌊a.val⌋ * (a.d : ℤ)) < (a.d : ℤ) := by
    rw [hr]; exact (key _).1
  have H2 : 1/2 < a.val - (⌊a.val⌋ : ℚ) ↔ (a.d : ℤ) < 2 * (a.n - ⌊a.val⌋ * (a.d : ℤ)) := by
    rw [hr]; exact (key _).2
  simp only [roundNEF, roundNE, hfl]
  rcases em (2 * (a.n - ⌊a.val⌋ * (a.d : ℤ)) < (a.d : ℤ)) with c1 | c1
  · rw [if_pos c1, if_pos (H1.mpr c1)]
  · rw [if_neg c1, if_neg (fun hq => c1 (H1.mp hq))]
    rcases em ((a.d : ℤ) < 2 * (a.n - ⌊a.val⌋ * (a.d : ℤ))) with c2 | c2
    · rw [if_pos c2, if_pos (H2.mpr c2)]
    · rw [if_neg c2, if_neg (fun hq => c2 (H2.mp hq))]

theorem smallExpF_val (m : ℕ) : ∀ a : Frac, a.pos → smallExpF a m = smallExp a.val m := by
  induction m with
  | zero => intro a _; rfl
  | succ m ih =>
    intro a ha
    have hd : (0 : ℚ) < (a.d : ℚ) := a.den_pos_q ha
    have hcond : ((a.d : ℤ) ≤ a.n) ↔ (1 ≤ a.val) := by
      rw [Frac.val, le_div_iff hd]
      constructor
      · intro h
        have h2 : ((a.d : ℤ) : ℚ) ≤ (a.n : ℚ) := by exact_mod_cast h
        push_cast at h2
        linarith
      · intro h
        have h2 : ((a.d : ℤ) : ℚ) ≤ (a.n : ℚ) := by push_cast; linarith
        exact_mod_cast h2
    have hval : (Frac.mk (2 * a.n) a.d).val = 2 * a.val := by
      simp only [Frac.val]
      push_cast
      ring
    simp only [smallExpF, smallExp]
    rcases em ((a.d : ℤ) ≤ a.n) with c | c
    · rw [if_pos c, if_pos (hcond.mp c)]
    · rw [if_neg c, if_neg (fun hq => c (hcond.mpr hq)), ih ⟨2 * a.n, a.d⟩ ha, hval]

theorem bigExpF_val (m : ℕ) : ∀ a : Frac, a.pos → bigExpF a m = bigExp a.val m := by
  induction m with
  | zero => intro a _; rfl
  | succ m ih =>
    intro a ha
    have hd : (0 : ℚ) < (a.d : ℚ) := a.den_pos_q ha
    have hcond : (a.n < 2 * (a.d : ℤ)) ↔ (a.val < 2) := by
      rw [Frac.val, div_lt_iff hd]
      constructor
      · intro h
        have h2 : (a.n : ℚ) < (2 * (a.d : ℤ) : ℚ) := by exact_mod_cast h
        push_cast at h2
        linarith
      · intro h
        have h2 : (a.n : ℚ) < (2 * (a.d : ℤ) : ℚ) := by push_cast; linarith
        exact_mod_cast h2
    have hval : (Frac.mk a.n (2 * a.d)).val = a.val / 2 := by
      simp only [Frac.val]
      push_cast
      ring
    have hpos2 : (Frac.mk a.n (2 * a.d)).pos := Nat.mul_pos Nat.zero_lt_two ha
    simp only [bigExpF, bigExp]
    rcases em (a.n < 2 * (a.d : ℤ)) with c | c
    · rw [if_pos c, if_pos (hcond.mp c)]
    · rw [if_neg c, if_neg (fun hq => c (hcond.mpr hq)), ih ⟨a.n, 2 * a.d⟩ hpos2, hval]

theorem qlog2F_val (a : Frac) (ha : a.pos) : qlog2F a = qlog2 a.val := by
  have hd : (0 : ℚ) < (a.d : ℚ) := a.den_pos_q ha
  have hcond : ((a.d : ℤ) ≤ a.n) ↔ (1 ≤ a.val) := by
    rw [Frac.val, le_div_iff hd]
    constructor
    · intro h
      have h2 : ((a.d : ℤ) : ℚ) ≤ (a.n : ℚ) := by exact_mod_cast h
      push_cast at h2
      linarith
    · intro h
      have h2 : ((a.d : ℤ) : ℚ) ≤ (a.n : ℚ) := by push_cast; linarith
      exact_mod_cast h2
  simp only [qlog2F, qlog2]
  rcases em ((a.d : ℤ) ≤ a.n) with c | c
  · rw [if_pos c, if_pos (hcond.mp c), bigExpF_val _ _ ha]
  · rw [if_neg c, if_neg (fun hq => c (hcond.mpr hq)), smallExpF_val _ _ ha]

theorem fl32PosF_pos (a : Frac) (ha : a.pos) : (fl32PosF a).pos := by
  exact Frac.pos_scale2 _ _ (Frac.pos_ofInt _)

theorem fl32PosF_val (a : Frac) (ha : a.pos) : (fl32PosF a).val = fl32Pos a.val := by
  simp only [fl32PosF, fl32Pos]
  rw [Frac.val_scale2 _ _ (Frac.pos_ofInt _), Frac.val_ofInt,
    roundNEF_val _ (Frac.pos_scale2 _ _ ha), Frac.val_scale2 _ _ ha, qlog2F_val _ ha]

theorem fl32F_pos (a : Frac) (ha : a.pos) : (fl32F a).pos := by
  simp only [fl32F]
  rcases em (a.n = 0) with c | c
  · rw [if_pos c]; exact Frac.pos_ofInt _
  · rw [if_neg c]
    rcases em (a.n < 0) with c2 | c2
    · rw [if_pos c2]; exact Frac.pos_neg _ (fl32PosF_pos _ (Frac.pos_neg _ ha))
    · rw [if_neg c2]; exact fl32PosF_pos _ ha

theorem fl32F_val (a : Frac) (ha : a.pos) : (fl32F a).val = fl32 a.val := by
  have hd : (0 : ℚ) < (a.d : ℚ) := a.den_pos_q ha
  have hzero : (a.n = 0) ↔ (a.val = 0) := by
    rw [Frac.val, div_eq_zero_iff]
    constructor
    · intro h; left; exact_mod_cast h
    · intro h
      rcases h with h | h
      · exact_mod_cast h
      · exact absurd h (a.den_ne ha)
  have hneg : (a.n < 0) ↔ (a.val < 0) := by
    rw [Frac.val, div_neg_iff]
    constructor
    · intro h; right; exact ⟨by exact_mod_cast h, hd⟩
    · intro h
      rcases h with ⟨_, h2⟩ | ⟨h1, _⟩
      · exact absurd hd (not_lt.mpr (le_of_lt h2))
      · exact_mod_cast h1
  simp only [fl32F, fl32]
  rcases em (a.n = 0) with c | c
  · rw [if_pos c, if_pos (hzero.mp c), Frac.val_ofInt]; rfl
  · rw [if_neg c, if_neg (fun hq => c (hzero.mpr hq))]
    rcases em (a.n < 0) with c2 | c2
    · rw [if_pos c2, if_pos (hneg.mp c2), Frac.val_neg, fl32PosF_val _ (Frac.pos_neg _ ha),
        Frac.val_neg]
    · rw [if_neg c2, if_neg (fun hq => c2 (hneg.mpr hq)), fl32PosF_val _ ha]

/-! ## Bounds on the rounding function (for the container invariants) -/

theorem roundNE_le (q : ℚ) : (roundNE q : ℚ) ≤ q + 1/2 := by
  have hf : (⌊q⌋ : ℚ) ≤ q := Int.floor_le q
  have hf2 : q - 1 < (⌊q⌋ : ℚ) := by
    have := Int.lt_floor_add_one q
    linarith
  simp only [roundNE]
  split_ifs with c1 c2 c3
  · linarith
  · push_cast; linarith
  · linarith
  · push_cast; linarith

theorem roundNE_nonneg (q : ℚ) (h : 0 ≤ q) : 0 ≤ roundNE q := by
  have hf : (0 : ℤ) ≤ ⌊q⌋ := Int.floor_nonneg.mpr h
  simp only [roundNE]
  split_ifs <;> omega

theorem bigExp_le (m : ℕ) : ∀ q : ℚ, 1 ≤ q → (2 : ℚ) ^ (bigExp q m) ≤ q := by
  induction m with
  | zero => intro q hq; simpa [bigExp] using hq
  | succ m ih =>
    intro q hq
    simp only [bigExp]
    split_ifs with c
    · simpa using hq
    · push_neg at c
      have h2 : (1 : ℚ) ≤ q / 2 := by linarith
      have := ih (q / 2) h2
      rw [pow_succ]
      calc (2 : ℚ) ^ bigExp (q / 2) m * 2 ≤ q / 2 * 2 := by linarith
        _ = q := by ring

theorem fl32Pos_le (q : ℚ) (h : 0 < q) :
    fl32Pos q ≤ q + q / 2 ^ 24 + 1 / 2 ^ 24 := by
  set e := qlog2 q with he
  have hmul : ∀ a b : ℤ, (2 : ℚ) ^ a * (2 : ℚ) ^ b = 2 ^ (a + b) :=
    fun a b => (zpow_add₀ (two_ne_zero) a b).symm
  have hstep : fl32Pos q ≤ q + (2 : ℚ) ^ (e - 24) := by
    have h1 : (roundNE (q * (2 : ℚ) ^ (23 - e)) : ℚ) ≤ q * (2 : ℚ) ^ (23 - e) + 1/2 :=
      roundNE_le _
    have hp : (0 : ℚ) < (2 : ℚ) ^ (e - 23) := by positivity
    have h2 := mul_le_mul_of_nonneg_right h1 (le_of_lt hp)
    calc fl32Pos q = (roundNE (q * (2 : ℚ) ^ (23 - e)) : ℚ) * (2 : ℚ) ^ (e - 23) := rfl
      _ ≤ (q * (2 : ℚ) ^ (23 - e) + 1/2) * (2 : ℚ) ^ (e - 23) := h2
      _ = q * ((2 : ℚ) ^ (23 - e) * (2 : ℚ) ^ (e - 23)) + 1/2 * (2 : ℚ) ^ (e - 23) := by ring
      _ = q + 1/2 * (2 : ℚ) ^ (e - 23) := by
          rw [hmul, show (23 - e) + (e - 23) = 0 by ring]
          norm_num
      _ = q + (2 : ℚ) ^ (e - 24) := by
          rw [show (1/2 : ℚ) = (2 : ℚ) ^ (-1 : ℤ) by norm_num, hmul,
            show (-1 + (e - 23)) = e - 24 by ring]
  have hbound : (2 : ℚ) ^ (e - 24) ≤ q / 2 ^ 24 + 1 / 2 ^ 24 := by
    rcases em (1 ≤ q) with hc | hc
    · have he2 : e = (bigExp q 300 : ℤ) := by rw [he, qlog2, if_pos hc]
      have h2e : (2 : ℚ) ^ e ≤ q := by
        rw [he2, zpow_natCast]
        exact bigExp_le 300 q hc
      have h24 : ((2 : ℚ) ^ (24 : ℕ)) = (2 : ℚ) ^ ((24 : ℕ) : ℤ) := (zpow_natCast 2 24).symm
      have hrw : (2 : ℚ) ^ (e - 24) = (2 : ℚ) ^ e / 2 ^ 24 := by
        rw [h24, eq_div_iff (by positivity : ((2 : ℚ) ^ ((24 : ℕ) : ℤ)) ≠ 0), hmul]
        congr 1
        omega
      rw [hrw]
      have h124 : (0 : ℚ) ≤ 1 / 2 ^ 24 := by positivity
      have hg : (2 : ℚ) ^ e / 2 ^ 24 ≤ q / 2 ^ 24 := by gcongr
      linarith
    · push_neg at hc
      have he2 : e = -(smallExp q 300 : ℤ) := by rw [he, qlog2, if_neg (not_le.mpr hc)]
      have hne : e ≤ 0 := by rw [he2]; omega
      have hz : (2 : ℚ) ^ (e - 24) ≤ (2 : ℚ) ^ (-24 : ℤ) := by
        apply zpow_le_zpow_right₀ (by norm_num : (1 : ℚ) ≤ 2)
        omega
      have hz2 : ((2 : ℚ) ^ (-24 : ℤ)) = 1 / 2 ^ 24 := by
        norm_num
      have hq24 : (0 : ℚ) ≤ q / 2 ^ 24 := by positivity
      rw [hz2] at hz
      linarith
  linarith

theorem fl32Pos_nonneg (q : ℚ) (h : 0 < q) : 0 ≤ fl32Pos q := by
  have h1 : (0 : ℚ) ≤ (roundNE (q * (2 : ℚ) ^ (23 - qlog2 q)) : ℚ) := by
    have := roundNE_nonneg (q * (2 : ℚ) ^ (23 - qlog2 q)) (by positivity)
    exact_mod_cast this
  have h2 : (0 : ℚ) ≤ (2 : ℚ) ^ (qlog2 q - 23) := by positivity
  exact mul_nonneg h1 h2

theorem fl32_nonneg (q : ℚ) (h : 0 ≤ q) : 0 ≤ fl32 q := by
  simp only [fl32]
  split_ifs with c1 c2
  · exact le_refl 0
  · exact absurd c2 (not_lt.mpr h)
  · exact fl32Pos_nonneg q (lt_of_le_of_ne h (fun hq => c1 hq.symm))

theorem fl32_lt_of_le (q : ℚ) (h0 : 0 ≤ q) (h : q ≤ 10000) : fl32 q < 10001 := by
  simp only [fl32]
  split_ifs with c1 c2
  · norm_num
  · exact absurd c2 (not_lt.mpr h0)
  · have hq : 0 < q := lt_of_le_of_ne h0 (fun hq => c1 hq.symm)
    have h1 := fl32Pos_le q hq
    have hb : q / 2 ^ 24 ≤ 10000 / 2 ^ 24 := by gcongr
    have hc : (10000 : ℚ) / 2 ^ 24 + 1 / 2 ^ 24 < 1 := by norm_num
    linarith

/-! ## Shape of constructed expressions -/

theorem exprOf_shape (op : ℕ) (value : Frac) (hv : value.pos) :
    ∃ w, w ≤ 10000 ∧ exprOf op value = op * 2 ^ 28 + w := by
  refine ⟨Int.toNat (fl32F ((if value.lt (Frac.ofInt 0) then Frac.ofInt 0
    else if (Frac.ofInt 100).lt value then Frac.ofInt 100 else value).mul
      (Frac.ofInt 100))).floor, ?_, rfl⟩
  set v : Frac := if value.lt (Frac.ofInt 0) then Frac.ofInt 0
    else if (Frac.ofInt 100).lt value then Frac.ofInt 100 else value with hvdef
  have hvpos : v.pos := by
    rw [hvdef]
    split_ifs
    · exact Frac.pos_ofInt 0
    · exact Frac.pos_ofInt 100
    · exact hv
  have hv0 : 0 ≤ v.val ∧ v.val ≤ 100 := by
    rw [hvdef]
    split_ifs with c1 c2
    · rw [Frac.val_ofInt]; norm_num
    · rw [Frac.val_ofInt]; norm_num
    · have hc1 : ¬(value.val < (Frac.ofInt 0).val) := fun hq =>
        c1 ((Frac.lt_iff _ _ hv (Frac.pos_ofInt 0)).mpr hq)
      have hc2 : ¬((Frac.ofInt 100).val < value.val) := fun hq =>
        c2 ((Frac.lt_iff _ _ (Frac.pos_ofInt 100) hv).mpr hq)
      rw [Frac.val_ofInt] at hc1 hc2
      push_neg at hc1 hc2
      exact ⟨by exact_mod_cast hc1, by exact_mod_cast hc2⟩
  have hXpos : (v.mul (Frac.ofInt 100)).pos := Frac.pos_mul _ _ hvpos (Frac.pos_ofInt 100)
  have hXval : (v.mul (Frac.ofInt 100)).val = v.val * 100 := by
    rw [Frac.val_mul _ _ hvpos (Frac.pos_ofInt 100), Frac.val_ofInt]
    norm_num
  have hfl : (fl32F (v.mul (Frac.ofInt 100))).floor = ⌊fl32 (v.val * 100)⌋ := by
    rw [Frac.floor_val _ (fl32F_pos _ hXpos), fl32F_val _ hXpos, hXval]
  rw [hfl]
  have h0 : (0 : ℚ) ≤ v.val * 100 := by nlinarith [hv0.1]
  have h1 : v.val * 100 ≤ 10000 := by nlinarith [hv0.2]
  have hup : fl32 (v.val * 100) < 10001 := fl32_lt_of_le _ h0 h1
  have hdn : (0 : ℚ) ≤ fl32 (v.val * 100) := fl32_nonneg _ h0
  have : ⌊fl32 (v.val * 100)⌋ < 10001 := by
    exact_mod_cast Int.floor_lt.mpr (by exact_mod_cast hup)
  omega

theorem Operator_pack (op w : ℕ) (hop : op ≤ 15) (hw : w ≤ 10000) :
    Expr.Operator (op * 2 ^ 28 + w) = op := by
  simp only [Expr.Operator]
  omega

theorem Value_pack (op w : ℕ) (hop : op ≤ 15) (hw : w ≤ 10000) :
    Expr.Value (op * 2 ^ 28 + w) = w := by
  simp only [Expr.Value]
  omega

theorem Percent_pos (e : ℕ) : (Expr.Percent e).pos := by
  simp only [Expr.Percent]
  split_ifs
  · exact Frac.pos_ofInt 100
  · exact fl32F_pos _ (by norm_num [Frac.pos])

theorem Percent_nonneg (e : ℕ) : 0 ≤ (Expr.Percent e).val := by
  simp only [Expr.Percent]
  split_ifs
  · rw [Frac.val_ofInt]; norm_num
  · rw [fl32F_val _ (by norm_num [Frac.pos])]
    apply fl32_nonneg
    have h0 : (0 : ℚ) ≤ ((Expr.Value e : ℤ) : ℚ) := by positivity
    simp only [Frac.val]
    positivity

/-! ## Parser results are well-formed -/

/-- Well-formed parse output: a nonzero 32-bit fact and a canonical packed
expression. -/
def goodKV (k v : ℕ) : Prop :=
  0 < k ∧ k < 2 ^ 32 ∧ ∃ op w, op ≤ 4 ∧ w ≤ 10000 ∧ v = op * 2 ^ 28 + w

theorem factOf_bounds (s : String) : 0 < factOf s ∧ factOf s < 2 ^ 32 := by
  have h := Nat.mod_lt (s.data.foldl
      (fun a c => a * 256 + (if 'A' ≤ c && c ≤ 'Z' then c.toNat + 32 else c.toNat) % 256) 0)
    (show 0 < 0xFFFFFFFF by norm_num)
  constructor
  · simp only [factOf]; omega
  · simp only [factOf]; omega

theorem opCodeOf_le (c : Char) (op : ℕ) (h : opCodeOf c = some op) : op ≤ 4 := by
  unfold opCodeOf at h
  split_ifs at h <;> injection h with h2 <;> subst h2 <;>
    simp [opEqual, opIncrement, opDecrement, opLess, opGreater]

theorem goParseFloat_pos (s : String) (v : Frac) (h : goParseFloat s = some v) : v.pos := by
  simp only [goParseFloat] at h
  split at h
  · exact absurd h (by simp)
  · split at h
    · exact absurd h (by simp)
    · split at h
      · injection h with h2
        rw [← h2]
        exact Frac.pos_mul _ _ (Nat.pos_pow_of_pos _ (by norm_num)) (Frac.pos_ofInt _)
      · injection h with h2
        rw [← h2]
        exact Frac.pos_divNat _ _ (Nat.pos_pow_of_pos _ (by norm_num))
          (Nat.pos_pow_of_pos _ (by norm_num))

theorem goodKV_of_exprOf (key : String) (op : ℕ) (x : Frac) (hop : op ≤ 4) (hx : x.pos) :
    goodKV (factOf key) (exprOf op x) := by
  obtain ⟨w, hw, hsh⟩ := exprOf_shape op x hx
  exact ⟨(factOf_bounds key).1, (factOf_bounds key).2, op, w, hop, hw, hsh⟩

theorem parseRule_goodKV (s : String) (k v : ℕ) (h : parseRule s = .ok (k, v)) :
    goodKV k v := by
  simp only [parseRule] at h
  repeat' split at h
  all_goals simp only [Except.ok.injEq, Prod.mk.injEq, reduceCtorEq] at h
  all_goals obtain ⟨hk, hv⟩ := h
  all_goals subst hk
  all_goals subst hv
  all_goals
    apply goodKV_of_exprOf <;>
      first
      | exact Frac.pos_ofInt _
      | (split_ifs <;> exact Frac.pos_ofInt _)
      | exact fl32F_pos _ (goParseFloat_pos _ _ (by assumption))
      | exact opCodeOf_le _ _ (by assumption)
      | norm_num [opEqual]

/-! ## Correctness of `sort.Search` and `State.find` -/

theorem searchAux_spec (f : ℕ → Bool) (mono : ∀ a b, a ≤ b → f a = true → f b = true) :
    ∀ fuel i j, j - i ≤ fuel → i ≤ j →
      i ≤ searchAux f fuel i j ∧ searchAux f fuel i j ≤ j ∧
      (∀ t, i ≤ t → t < searchAux f fuel i j → f t = false) ∧
      (∀ t, searchAux f fuel i j ≤ t → t < j → f t = true) := by
  intro fuel
  induction fuel with
  | zero =>
    intro i j hfuel hij
    have : i = j := by omega
    subst this
    simp only [searchAux]
    exact ⟨le_refl i, le_refl i, fun t h1 h2 => absurd h2 (by omega), fun t h1 h2 => absurd h2 (by omega)⟩
  | succ fuel ih =>
    intro i j hfuel hij
    simp only [searchAux]
    split
    · rename_i hlt
      have hdiv := Nat.div_add_mod (i + j) 2
      have hmod : (i + j) % 2 < 2 := Nat.mod_lt _ (by norm_num)
      set m := (i + j) / 2 with hm
      have hmi : i ≤ m := by omega
      have hmj : m < j := by omega
      split
      · rename_i hf
        obtain ⟨r1, r2, r3, r4⟩ := ih i m (by omega) hmi
        refine ⟨r1, by omega, r3, fun t h1 h2 => ?_⟩
        rcases em (t < m) with hc | hc
        · exact r4 t h1 hc
        · exact mono m t (by omega) hf
      · rename_i hf
        obtain ⟨r1, r2, r3, r4⟩ := ih (m + 1) j (by omega) (by omega)
        refine ⟨by omega, r2, fun t h1 h2 => ?_, r4⟩
        rcases em (m + 1 ≤ t) with hc | hc
        · exact r3 t hc h2
        · rcases em (f t = true) with hc2 | hc2
          · exact absurd (mono t m (by omega) hc2) (by simp [hf])
          · simpa using hc2
    · rename_i hge
      have : i = j := by omega
      subst this
      exact ⟨le_refl i, le_refl i, fun t h1 h2 => absurd h2 (by omega), fun t h1 h2 => absurd h2 (by omega)⟩

theorem goSearch_spec (n : ℕ) (f : ℕ → Bool) (mono : ∀ a b, a ≤ b → f a = true → f b = true) :
    goSearch n f ≤ n ∧
    (∀ t, t < goSearch n f → f t = false) ∧
    (∀ t, goSearch n f ≤ t → t < n → f t = true) := by
  obtain ⟨r1, r2, r3, r4⟩ := searchAux_spec f mono (n + 1) 0 n (by omega) (by omega)
  exact ⟨r2, fun t h2 => r3 t (by omega) h2, r4⟩

/-- Strictly-descending fact order on a list. -/
def factSorted (l : List ℕ) : Prop := l.Pairwise (fun a b => Rule.Fact b < Rule.Fact a)

theorem factSorted_getD (l : List ℕ) (hs : factSorted l) (a b : ℕ) (hab : a ≤ b) :
    Rule.Fact (l.getD b 0) ≤ Rule.Fact (l.getD a 0) := by
  rcases em (b < l.length) with hb | hb
  · have ha : a < l.length := lt_of_le_of_lt hab hb
    rcases em (a = b) with he | he
    · subst he; exact le_refl _
    · have hlt : a < b := lt_of_le_of_ne hab he
      have := (List.pairwise_iff_get.mp hs) ⟨a, ha⟩ ⟨b, hb⟩ hlt
      rw [List.getD_eq_getElem l 0 ha, List.getD_eq_getElem l 0 hb]
      simp only [List.get_eq_getElem] at this
      exact le_of_lt this
  · rw [List.getD_eq_default l 0 (by omega)]
    simp only [Rule.Fact]
    exact Nat.zero_le _

theorem find_true (s : StateV) (k : ℕ) (h : (s.find k).2 = true) :
    (s.find k).1 < s.vx.length ∧ Rule.Fact (s.vx.getD (s.find k).1 0) = k := by
  simp only [StateV.find] at h ⊢
  split at h
  · rename_i hlen
    have h0 : s.vx.length = 0 := by omega
    have hnil : s.vx = [] := List.eq_nil_of_length_eq_zero h0
    rw [hnil] at h ⊢
    simp [findLinearAux] at h
  · rename_i hlen
    rw [if_neg hlen]
    split at h
    · rename_i hcond
      rw [if_pos hcond]
      simp only [Bool.and_eq_true, decide_eq_true_eq, beq_iff_eq] at hcond
      exact hcond
    · simp at h

theorem find_false (s : StateV) (k : ℕ) (hs : factSorted s.vx) (h : (s.find k).2 = false) :
    ∀ r ∈ s.vx, Rule.Fact r ≠ k := by
  intro r hr hfact
  obtain ⟨t, ht, hget⟩ := List.getElem_of_mem hr
  have hmono : ∀ a b, a ≤ b → (decide (Rule.Fact (s.vx.getD a 0) ≤ k)) = true →
      (decide (Rule.Fact (s.vx.getD b 0) ≤ k)) = true := by
    intro a b hab hfa
    simp only [decide_eq_true_eq] at hfa ⊢
    exact le_trans (factSorted_getD s.vx hs a b hab) hfa
  obtain ⟨g1, g2, g3⟩ := goSearch_spec s.vx.length _ hmono
  simp only [StateV.find] at h
  split at h
  · rename_i hlen
    omega
  · rename_i hlen
    split at h
    · simp at h
    · rename_i hcond
      simp only [Bool.and_eq_true, decide_eq_true_eq, beq_iff_eq, not_and] at hcond
      set x := goSearch s.vx.length (fun i => decide (Rule.Fact (s.vx.getD i 0) ≤ k)) with hx
      rcases em (t < x) with hc | hc
      · have := g2 t hc
        simp only [decide_eq_false_iff_not, not_le] at this
        rw [List.getD_eq_getElem s.vx 0 ht, hget] at this
        omega
      · rcases em (x < s.vx.length) with hc2 | hc2
        · have hxk : Rule.Fact (s.vx.getD x 0) ≤ k := by
            have := g3 x (le_refl x) hc2
            simpa using this
          have hne := hcond hc2
          have hts : Rule.Fact (s.vx.getD x 0) ≥ Rule.Fact (s.vx.getD t 0) :=
            factSorted_getD s.vx hs x t (by omega)
          rw [List.getD_eq_getElem s.vx 0 ht, hget] at hts
          omega
        · omega

/-! ## Container invariants (claim C3's I1, I2, I3) -/

/-- XOR of the entry hashes of a list (right fold; XOR is associative and
commutative so the direction is immaterial). -/
def xorHash (l : List ℕ) : ℕ := l.foldr (fun r a => Nat.xor (ruleHash r) a) 0

theorem ruleHash_lt (r : ℕ) : ruleHash r < 2 ^ 32 :=
  Nat.xor_lt_two_pow (Nat.mod_lt _ (by norm_num)) (Nat.mod_lt _ (by norm_num))

theorem natXor_eq (a b : ℕ) : Nat.xor a b = a ^^^ b := rfl

theorem xor_left_comm (a b c : ℕ) : a ^^^ (b ^^^ c) = b ^^^ (a ^^^ c) := by
  rw [← Nat.xor_assoc, Nat.xor_comm a b, Nat.xor_assoc]

theorem xor_xor_cancel (a b : ℕ) : (a ^^^ b) ^^^ a = b := by
  rw [Nat.xor_comm a b, Nat.xor_assoc, Nat.xor_self, Nat.xor_zero]

theorem xorHash_cons (x : ℕ) (l : List ℕ) :
    xorHash (x :: l) = ruleHash x ^^^ xorHash l := rfl

theorem xorHash_perm (l l' : List ℕ) (h : l.Perm l') : xorHash l = xorHash l' := by
  induction h with
  | nil => rfl
  | cons x _ ih => rw [xorHash_cons, xorHash_cons, ih]
  | swap x y l => rw [xorHash_cons, xorHash_cons, xorHash_cons, xorHash_cons, xor_left_comm]
  | trans _ _ ih1 ih2 => exact ih1.trans ih2

theorem xorHash_append_single (l : List ℕ) (r : ℕ) :
    xorHash (l ++ [r]) = xorHash l ^^^ ruleHash r := by
  rw [xorHash_perm _ _ (List.perm_append_singleton r l), xorHash_cons, Nat.xor_comm]

theorem xorHash_lt (l : List ℕ) : xorHash l < 2 ^ 32 := by
  induction l with
  | nil => norm_num [xorHash]
  | cons x t ih => rw [xorHash_cons]; exact Nat.xor_lt_two_pow (ruleHash_lt x) ih

/-- One entry of the state is well-formed: a nonzero 32-bit fact and a
canonically packed expression. -/
def ruleBound (r : ℕ) : Prop :=
  0 < Rule.Fact r ∧ Rule.Fact r < 2 ^ 32 ∧
    ∃ op w, op ≤ 4 ∧ w ≤ 10000 ∧ Rule.Expr r = op * 2 ^ 28 + w

/-- The container invariants of the spec: (I1) fact uniqueness and (I2)
canonical descending order (together: strictly descending facts), (I3) the
cached hash is the XOR of the entry hashes; plus entry well-formedness. -/
structure WF (s : StateV) : Prop where
  sorted : factSorted s.vx
  hash : s.hx = xorHash s.vx
  bounds : ∀ r ∈ s.vx, ruleBound r

theorem Fact_ruleOf (k v : ℕ) : Rule.Fact (ruleOf k v) = k := by
  have h := Nat.mod_lt v (show 0 < 2 ^ 32 by norm_num)
  simp only [ruleOf, Rule.Fact]
  omega

theorem Expr_ruleOf (k v : ℕ) : Rule.Expr (ruleOf k v) = v % 2 ^ 32 := by
  simp only [ruleOf, Rule.Expr]
  omega

theorem ruleBound_ruleOf (k v : ℕ) (h : goodKV k v) : ruleBound (ruleOf k v) := by
  obtain ⟨h1, h2, op, w, hop, hw, hsh⟩ := h
  refine ⟨?_, ?_, op, w, hop, hw, ?_⟩
  · rw [Fact_ruleOf]
    exact h1
  · rw [Fact_ruleOf]
    exact h2
  rw [Expr_ruleOf, hsh]
  have : op * 2 ^ 28 + w < 2 ^ 32 := by omega
  omega

theorem factSorted_imp_ne (l : List ℕ) (hs : factSorted l) :
    l.Pairwise (fun a b => Rule.Fact a ≠ Rule.Fact b) :=
  hs.imp (fun h => (Nat.ne_of_lt h).symm)

theorem factSorted_of_sortRules (l : List ℕ)
    (hnd : l.Pairwise (fun a b => Rule.Fact a ≠ Rule.Fact b)) :
    factSorted (sortRules l) := by
  have hsort : List.Sorted descRel (sortRules l) := List.sorted_insertionSort descRel l
  have hperm : (sortRules l).Perm l := List.perm_insertionSort descRel l
  have hnd' : (sortRules l).Pairwise (fun a b => Rule.Fact a ≠ Rule.Fact b) :=
    (hperm.pairwise_iff (fun h => h.symm)).mpr hnd
  exact (hsort.and hnd').imp (fun h => lt_of_le_of_ne h.1 h.2.symm)

theorem set_decomp (l : List ℕ) (i a : ℕ) (hi : i < l.length) :
    l.set i a = l.take i ++ a :: l.drop (i + 1) := by
  induction l generalizing i with
  | nil => simp at hi
  | cons x t ih =>
    cases i with
    | zero => simp
    | succ n =>
      simp only [List.set, List.take, List.drop, List.cons_append, List.cons.injEq, true_and]
      exact ih n (by simpa using hi)

theorem list_middle_perm (l : List ℕ) (i : ℕ) (hi : i < l.length) :
    l.Perm (l.getD i 0 :: l.eraseIdx i) := by
  conv_lhs => rw [← List.take_append_drop i l, List.drop_eq_getElem_cons hi]
  rw [List.eraseIdx_eq_take_drop_succ, List.getD_eq_getElem l 0 hi]
  exact List.perm_middle

theorem set_perm (l : List ℕ) (i a : ℕ) (hi : i < l.length) :
    (l.set i a).Perm (a :: l.eraseIdx i) := by
  rw [set_decomp l i a hi, List.eraseIdx_eq_take_drop_succ]
  exact List.perm_middle

theorem xorHash_set (l : List ℕ) (i r' : ℕ) (hi : i < l.length) :
    xorHash (l.set i r') =
      (xorHash l ^^^ ruleHash (l.getD i 0)) ^^^ ruleHash r' := by
  rw [xorHash_perm _ _ (set_perm l i r' hi), xorHash_cons,
    xorHash_perm _ _ (list_middle_perm l i hi), xorHash_cons]
  have cancel : ∀ x y : ℕ, (x ^^^ y) ^^^ y = x := by
    intro x y
    rw [Nat.xor_assoc, Nat.xor_self, Nat.xor_zero]
  rw [Nat.xor_comm (ruleHash (l.getD i 0)) (xorHash (l.eraseIdx i)), cancel, Nat.xor_comm]

instance : IsAntisymm ℕ (fun a b => Rule.Fact b < Rule.Fact a) :=
  ⟨fun _ _ h1 h2 => absurd h2 (by omega)⟩

theorem factSorted_eraseIdx (l : List ℕ) (i : ℕ) (hs : factSorted l) :
    factSorted (l.eraseIdx i) :=
  hs.sublist (List.eraseIdx_sublist l i)

theorem pairwise_ne_set_zero (l : List ℕ) (i : ℕ) (hi : i < l.length) (hs : factSorted l)
    (hpos : ∀ r ∈ l, 0 < Rule.Fact r) :
    (l.set i 0).Pairwise (fun a b => Rule.Fact a ≠ Rule.Fact b) := by
  have hz : Rule.Fact 0 = 0 := rfl
  have hperm := set_perm l i 0 hi
  apply (hperm.pairwise_iff (fun h => h.symm)).mpr
  apply List.Pairwise.cons
  · intro b hb
    have hbl : b ∈ l := (List.eraseIdx_sublist l i).mem hb
    have := hpos b hbl
    omega
  · exact factSorted_imp_ne _ (factSorted_eraseIdx l i hs)

theorem sortRules_set_zero (l : List ℕ) (i : ℕ) (hi : i < l.length) (hs : factSorted l)
    (hpos : ∀ r ∈ l, 0 < Rule.Fact r) :
    sortRules (l.set i 0) = l.eraseIdx i ++ [0] := by
  apply List.eq_of_perm_of_sorted (r := fun a b => Rule.Fact b < Rule.Fact a)
  · exact (List.perm_insertionSort descRel _).trans ((set_perm l i 0 hi).trans
      (List.perm_append_singleton 0 (l.eraseIdx i)).symm)
  · exact factSorted_of_sortRules _ (pairwise_ne_set_zero l i hi hs hpos)
  · apply List.pairwise_append.mpr
    refine ⟨factSorted_eraseIdx l i hs, List.pairwise_singleton _ _, ?_⟩
    intro a ha b hb
    rw [List.mem_singleton] at hb
    subst hb
    have := hpos a ((List.eraseIdx_sublist l i).mem ha)
    simpa [Rule.Fact] using this

theorem factSorted_set_samekey (l : List ℕ) (i r' : ℕ) (hi : i < l.length)
    (hs : factSorted l) (hk : Rule.Fact r' = Rule.Fact (l.getD i 0)) :
    factSorted (l.set i r') := by
  rw [List.getD_eq_getElem l 0 hi] at hk
  apply List.pairwise_iff_get.mpr
  intro a b hab
  have hga := List.pairwise_iff_get.mp hs
  have hab' : (a : ℕ) < (b : ℕ) := hab
  have hla : (a : ℕ) < l.length := by
    have := a.isLt
    simpa using this
  have hlb : (b : ℕ) < l.length := by
    have := b.isLt
    simpa using this
  simp only [List.get_eq_getElem, List.getElem_set]
  split
  · rename_i h1
    split
    · rename_i h2
      omega
    · rename_i h2
      rw [hk]
      exact hga ⟨(a : ℕ), hla⟩ ⟨i, by omega⟩ (Fin.mk_lt_mk.mpr (by omega))
  · rename_i h1
    split
    · rename_i h2
      rw [hk]
      exact hga ⟨i, by omega⟩ ⟨(b : ℕ), hlb⟩ (Fin.mk_lt_mk.mpr (by omega))
    · exact hga ⟨(a : ℕ), hla⟩ ⟨(b : ℕ), hlb⟩ (Fin.mk_lt_mk.mpr hab')

theorem store_WF (s : StateV) (k v : ℕ) (hw : WF s) (hkv : goodKV k v) :
    WF (s.store k v) := by
  have hrb := ruleBound_ruleOf k v hkv
  simp only [StateV.store]
  split
  · rename_i hfound
    obtain ⟨hi, hfact⟩ := find_true s k hfound
    constructor
    · apply factSorted_set_samekey _ _ _ hi hw.sorted
      rw [Fact_ruleOf, hfact]
    · rw [xorHash_set _ _ _ hi, hw.hash]
      rfl
    · intro r hr
      rcases List.mem_or_eq_of_mem_set hr with hmem | heq
      · exact hw.bounds r hmem
      · subst heq; exact hrb
  · rename_i hfound
    have hnotmem := find_false s k hw.sorted (by simpa using hfound)
    have hfresh : ∀ r ∈ s.vx, Rule.Fact r ≠ Rule.Fact (ruleOf k v) := by
      intro r hr
      rw [Fact_ruleOf]
      exact hnotmem r hr
    have hne : (s.vx ++ [ruleOf k v]).Pairwise (fun a b => Rule.Fact a ≠ Rule.Fact b) := by
      rw [List.pairwise_append]
      refine ⟨factSorted_imp_ne _ hw.sorted, List.pairwise_singleton _ _, ?_⟩
      intro a ha b hb
      rw [List.mem_singleton] at hb
      subst hb
      exact hfresh a ha
    constructor
    · exact factSorted_of_sortRules _ hne
    · show Nat.xor s.hx (ruleHash (ruleOf k v)) =
        xorHash (List.insertionSort descRel (s.vx ++ [ruleOf k v]))
      rw [hw.hash, xorHash_perm _ _ (List.perm_insertionSort descRel _), xorHash_append_single]
      rfl
    · intro r hr
      have hr2 : r ∈ s.vx ++ [ruleOf k v] :=
        (List.perm_insertionSort descRel _).subset hr
      rcases List.mem_append.mp hr2 with hmem | heq
      · exact hw.bounds r hmem
      · rw [List.mem_singleton] at heq
        subst heq; exact hrb

theorem WF_empty : WF emptyState := by
  constructor
  · exact List.Pairwise.nil
  · rfl
  · intro r hr; simp [emptyState] at hr

theorem Add_WF (s : StateV) (rule : String) (s' : StateV) (hw : WF s)
    (h : s.Add rule = .ok s') : WF s' := by
  simp only [StateV.Add] at h
  split at h
  · exact absurd h (by simp)
  · rename_i kv hkv
    injection h with h2
    subst h2
    exact store_WF s kv.1 kv.2 hw (parseRule_goodKV rule kv.1 kv.2 (by rw [hkv]))

theorem Del_WF (s : StateV) (rule : String) (s' : StateV) (hw : WF s)
    (h : s.Del rule = .ok s') : WF s' := by
  simp only [StateV.Del] at h
  split at h
  · exact absurd h (by simp)
  · rename_i kv hkv
    split at h
    · rename_i hfound
      injection h with h2
      subst h2
      obtain ⟨hi, hfact⟩ := find_true s kv.1 hfound
      have hpos : ∀ r ∈ s.vx, 0 < Rule.Fact r := fun r hr => (hw.bounds r hr).1
      rw [sortRules_set_zero s.vx (s.find kv.1).1 hi hw.sorted hpos, List.dropLast_concat]
      constructor
      · exact factSorted_eraseIdx _ _ hw.sorted
      · have hperm := list_middle_perm s.vx (s.find kv.1).1 hi
        have hx1 : xorHash s.vx =
            ruleHash (s.vx.getD (s.find kv.1).1 0) ^^^ xorHash (s.vx.eraseIdx (s.find kv.1).1) := by
          rw [xorHash_perm _ _ hperm, xorHash_cons]
        show s.hx ^^^ ruleHash (s.vx.getD (s.find kv.1).1 0) =
          xorHash (s.vx.eraseIdx (s.find kv.1).1)
        rw [hw.hash, hx1, Nat.xor_comm (ruleHash _) (xorHash _), Nat.xor_assoc, Nat.xor_self,
          Nat.xor_zero]
      · intro r hr
        exact hw.bounds r ((List.eraseIdx_sublist _ _).mem hr)
    · injection h with h2
      subst h2
      exact hw

theorem applyAux_WF (l : List ℕ) : ∀ (s : StateV) (s' : StateV), WF s →
    (∀ r ∈ l, ruleBound r) → applyAux s l = .ok s' → WF s' := by
  induction l with
  | nil =>
    intro s s' hw _ h
    simp only [applyAux] at h
    injection h with h2
    subst h2
    exact hw
  | cons elem rest ih =>
    intro s s' hw hb h
    simp only [applyAux] at h
    have hbe := hb elem (List.mem_cons_self _ _)
    obtain ⟨hbp, hbl, op, w, hop, hww, hbsh⟩ := hbe
    split at h
    · exact absurd h (by simp)
    · split at h
      · refine ih _ _ (store_WF _ _ _ hw ?_) (fun r hr => hb r (List.mem_cons_of_mem _ hr)) h
        exact ⟨hbp, hbl, op, w, hop, hww, hbsh⟩
      · split at h
        · refine ih _ _ (store_WF _ _ _ hw ?_) (fun r hr => hb r (List.mem_cons_of_mem _ hr)) h
          refine ⟨hbp, hbl, ?_⟩
          obtain ⟨w2, hw2, hsh2⟩ := exprOf_shape (Expr.Operator (s.load (Rule.Fact elem)))
            (fl32F ((Expr.Percent (s.load (Rule.Fact elem))).add (Expr.Percent (Rule.Expr elem))))
            (fl32F_pos _ (Frac.pos_add _ _ (Percent_pos _) (Percent_pos _)))
          rename_i hxop _ _
          refine ⟨Expr.Operator (s.load (Rule.Fact elem)), w2, ?_, hw2, hsh2⟩
          simp only [ne_eq, not_not] at hxop
          rw [hxop]
          norm_num [opEqual]
        · split at h
          · refine ih _ _ (store_WF _ _ _ hw ?_) (fun r hr => hb r (List.mem_cons_of_mem _ hr)) h
            refine ⟨hbp, hbl, ?_⟩
            obtain ⟨w2, hw2, hsh2⟩ := exprOf_shape (Expr.Operator (s.load (Rule.Fact elem)))
              (fl32F ((Expr.Percent (s.load (Rule.Fact elem))).sub (Expr.Percent (Rule.Expr elem))))
              (fl32F_pos _ (Frac.pos_sub _ _ (Percent_pos _) (Percent_pos _)))
            rename_i hxop _ _ _
            refine ⟨Expr.Operator (s.load (Rule.Fact elem)), w2, ?_, hw2, hsh2⟩
            simp only [ne_eq, not_not] at hxop
            rw [hxop]
            norm_num [opEqual]
          · exact absurd h (by simp)

theorem Apply_WF (s effects s' : StateV) (hw : WF s) (hb : WF effects)
    (h : s.Apply effects = .ok s') : WF s' :=
  applyAux_WF effects.vx s s' hw hb.bounds h

theorem Clone_WF (s : StateV) (hw : WF s) : WF s.Clone := by
  constructor
  · exact hw.sorted
  · exact hw.hash
  · exact hw.bounds

theorem StateOf_WF (rules : List String) (s : StateV) (h : StateOf rules = .ok s) : WF s := by
  have haux : ∀ (rs : List String) (s0 s1 : StateV), WF s0 →
      List.foldlM (fun s r => StateV.Add s r) s0 rs = .ok s1 → WF s1 := by
    intro rs
    induction rs with
    | nil =>
      intro s0 s1 hw0 hf
      simp only [List.foldlM] at hf
      injection hf with h2
      subst h2
      exact hw0
    | cons r rest ih =>
      intro s0 s1 hw0 hf
      simp only [List.foldlM_cons] at hf
      rcases hadd : StateV.Add s0 r with e | s2
      · rw [hadd] at hf
        exact Except.noConfusion hf
      · rw [hadd] at hf
        exact ih s2 s1 (Add_WF s0 r s2 hw0 hadd) hf
  exact haux rules emptyState s WF_empty h

/-! ## `load` after `store` -/

theorem eq_of_mem_same_fact (l : List ℕ) (hs : factSorted l) (a b : ℕ)
    (ha : a ∈ l) (hb : b ∈ l) (hf : Rule.Fact a = Rule.Fact b) : a = b := by
  induction l with
  | nil => simp at ha
  | cons x t ih =>
    have hne := factSorted_imp_ne _ hs
    rcases List.mem_cons.mp ha with rfl | ha2
    · rcases List.mem_cons.mp hb with rfl | hb2
      · rfl
      · exact absurd hf (List.rel_of_pairwise_cons hne hb2)
    · rcases List.mem_cons.mp hb with rfl | hb2
      · exact absurd hf.symm (List.rel_of_pairwise_cons hne ha2)
      · exact ih (hs.sublist (List.sublist_cons_self x t)) ha2 hb2

theorem load_eq_of_mem (s : StateV) (hs : factSorted s.vx) (r : ℕ) (hr : r ∈ s.vx) :
    s.load (Rule.Fact r) = Rule.Expr r := by
  cases hfind : (s.find (Rule.Fact r)).2
  · exact absurd rfl (find_false s _ hs hfind r hr)
  · obtain ⟨hi, hfact⟩ := find_true s _ hfind
    have hmem : s.vx.getD (s.find (Rule.Fact r)).1 0 ∈ s.vx := by
      rw [List.getD_eq_getElem s.vx 0 hi]
      exact List.getElem_mem hi
    have := eq_of_mem_same_fact s.vx hs _ r hmem hr hfact
    simp only [StateV.load, hfind, if_true]
    rw [this]

theorem load_eq_default (s : StateV) (f : ℕ) (h : ∀ r ∈ s.vx, Rule.Fact r ≠ f) :
    s.load f = exprOf opEqual (Frac.ofInt 0) := by
  cases hfind : (s.find f).2
  · simp only [StateV.load, hfind]
    rfl
  · obtain ⟨hi, hfact⟩ := find_true s _ hfind
    have hmem : s.vx.getD (s.find f).1 0 ∈ s.vx := by
      rw [List.getD_eq_getElem s.vx 0 hi]
      exact List.getElem_mem hi
    exact absurd hfact (h _ hmem)

theorem mem_store_self (s : StateV) (k v : ℕ) : ruleOf k v ∈ (s.store k v).vx := by
  simp only [StateV.store]
  split
  · rename_i hfound
    obtain ⟨hi, _⟩ := find_true s k hfound
    show ruleOf k v ∈ s.vx.set (s.find k).1 (ruleOf k v)
    refine List.mem_iff_getElem.mpr ⟨(s.find k).1, by rw [List.length_set]; exact hi, ?_⟩
    exact List.getElem_set_self _
  · apply (List.perm_insertionSort descRel _).mem_iff.mpr
    exact List.mem_append.mpr (Or.inr (List.mem_singleton.mpr rfl))

theorem mem_store_of_mem (s : StateV) (k v r : ℕ) (hr : r ∈ s.vx)
    (hne : Rule.Fact r ≠ k) : r ∈ (s.store k v).vx := by
  simp only [StateV.store]
  split
  · rename_i hfound
    obtain ⟨hi, hfact⟩ := find_true s k hfound
    obtain ⟨t, ht, hget⟩ := List.getElem_of_mem hr
    have htne : t ≠ (s.find k).1 := by
      intro he
      apply hne
      subst he
      rw [← hget, ← List.getD_eq_getElem s.vx 0 ht, hfact]
    show r ∈ s.vx.set (s.find k).1 (ruleOf k v)
    refine List.mem_iff_getElem.mpr ⟨t, by rw [List.length_set]; exact ht, ?_⟩
    rw [List.getElem_set_ne (Ne.symm htne)]
    exact hget
  · apply (List.perm_insertionSort descRel _).mem_iff.mpr
    exact List.mem_append.mpr (Or.inl hr)

theorem mem_store_elim (s : StateV) (k v r : ℕ) (hr : r ∈ (s.store k v).vx) :
    r ∈ s.vx ∨ r = ruleOf k v := by
  simp only [StateV.store] at hr
  split at hr
  · exact List.mem_or_eq_of_mem_set hr
  · rcases List.mem_append.mp ((List.perm_insertionSort descRel _).mem_iff.mp hr) with h | h
    · exact Or.inl h
    · exact Or.inr (List.mem_singleton.mp h)

theorem load_store_self (s : StateV) (k v : ℕ) (hw : WF s) (hkv : goodKV k v) :
    (s.store k v).load k = v := by
  have hw' := store_WF s k v hw hkv
  have hmem := mem_store_self s k v
  have := load_eq_of_mem (s.store k v) hw'.sorted _ hmem
  rw [Fact_ruleOf] at this
  rw [this, Expr_ruleOf]
  obtain ⟨-, -, op, w, hop, hww, hsh⟩ := hkv
  subst hsh
  omega

theorem load_store_other (s : StateV) (k v f : ℕ) (hw : WF s) (hkv : goodKV k v)
    (hne : f ≠ k) : (s.store k v).load f = s.load f := by
  have hw' := store_WF s k v hw hkv
  rcases em (∃ r ∈ s.vx, Rule.Fact r = f) with ⟨r, hr, hf⟩ | hno
  · have h1 := load_eq_of_mem s hw.sorted r hr
    have hmem2 := mem_store_of_mem s k v r hr (by rw [hf]; exact hne)
    have h2 := load_eq_of_mem (s.store k v) hw'.sorted r hmem2
    rw [hf] at h1 h2
    rw [h1, h2]
  · push_neg at hno
    rw [load_eq_default s f hno, load_eq_default (s.store k v) f]
    intro r hr
    rcases mem_store_elim s k v r hr with hmem | heq
    · exact hno r hmem
    · subst heq
      rw [Fact_ruleOf]
      exact Ne.symm hne

/-! ## The merge in `Match`: what an `ok true` outcome guarantees -/

theorem matchAux_true_spec : ∀ (state needs : List ℕ), matchAux needs state = .ok true →
    ∀ n ∈ needs, ∃ t ∈ state, Rule.Fact t = Rule.Fact n ∧
      Expr.Operator (Rule.Expr t) = opEqual ∧
      ((Expr.Operator (Rule.Expr n) = opEqual ∧
          Expr.Value (Rule.Expr t) = Expr.Value (Rule.Expr n)) ∨
       (Expr.Operator (Rule.Expr n) = opLess ∧
          Expr.Value (Rule.Expr t) < Expr.Value (Rule.Expr n)) ∨
       (Expr.Operator (Rule.Expr n) = opGreater ∧
          Expr.Value (Rule.Expr n) < Expr.Value (Rule.Expr t))) := by
  intro state
  induction state with
  | nil =>
    intro needs h n hn
    cases needs with
    | nil => simp at hn
    | cons a as => simp [matchAux] at h
  | cons t ts ih =>
    intro needs h n hn
    cases needs with
    | nil => simp at hn
    | cons n0 ns =>
      simp only [matchAux] at h
      by_cases hf : Rule.Fact t = Rule.Fact n0
      · rw [if_pos hf] at h
        by_cases hop1 : Expr.Operator (Rule.Expr t) = opEqual
        · rw [if_neg (not_not_intro hop1)] at h
          by_cases hopE : Expr.Operator (Rule.Expr n0) = opEqual
          · rw [if_pos hopE] at h
            by_cases hv : Expr.Value (Rule.Expr t) = Expr.Value (Rule.Expr n0)
            · rw [if_pos hv] at h
              rcases List.mem_cons.mp hn with rfl | hn2
              · exact ⟨t, List.mem_cons_self t ts, hf, hop1, Or.inl ⟨hopE, hv⟩⟩
              · obtain ⟨t', ht', rest⟩ := ih ns h n hn2
                exact ⟨t', List.mem_cons_of_mem t ht', rest⟩
            · rw [if_neg hv] at h
              exact absurd h (by simp)
          · rw [if_neg hopE] at h
            by_cases hopL : Expr.Operator (Rule.Expr n0) = opLess
            · rw [if_pos hopL] at h
              by_cases hv : Expr.Value (Rule.Expr t) < Expr.Value (Rule.Expr n0)
              · rw [if_pos hv] at h
                rcases List.mem_cons.mp hn with rfl | hn2
                · exact ⟨t, List.mem_cons_self t ts, hf, hop1, Or.inr (Or.inl ⟨hopL, hv⟩)⟩
                · obtain ⟨t', ht', rest⟩ := ih ns h n hn2
                  exact ⟨t', List.mem_cons_of_mem t ht', rest⟩
              · rw [if_neg hv] at h
                exact absurd h (by simp)
            · rw [if_neg hopL] at h
              by_cases hopG : Expr.Operator (Rule.Expr n0) = opGreater
              · rw [if_pos hopG] at h
                by_cases hv : Expr.Value (Rule.Expr n0) < Expr.Value (Rule.Expr t)
                · rw [if_pos hv] at h
                  rcases List.mem_cons.mp hn with rfl | hn2
                  · exact ⟨t, List.mem_cons_self t ts, hf, hop1, Or.inr (Or.inr ⟨hopG, hv⟩)⟩
                  · obtain ⟨t', ht', rest⟩ := ih ns h n hn2
                    exact ⟨t', List.mem_cons_of_mem t ht', rest⟩
                · rw [if_neg hv] at h
                  exact absurd h (by simp)
              · rw [if_neg hopG] at h
                exact absurd h (by simp)
        · rw [if_pos hop1] at h
          exact absurd h (by simp)
      · rw [if_neg hf] at h
        by_cases hlt : Rule.Fact n0 < Rule.Fact t
        · rw [if_pos hlt] at h
          obtain ⟨t', ht', rest⟩ := ih (n0 :: ns) h n hn
          exact ⟨t', List.mem_cons_of_mem t ht', rest⟩
        · rw [if_neg hlt] at h
          exact absurd h (by simp)

/-! ## Bidirectional `Match` and hash agreement -/

theorem rule_split (r : ℕ) : r = Rule.Fact r * 2 ^ 32 + Rule.Expr r := by
  simp only [Rule.Fact, Rule.Expr]
  omega

theorem expr_canon (r : ℕ) (hb : ruleBound r) :
    Rule.Expr r = Expr.Operator (Rule.Expr r) * 2 ^ 28 + Expr.Value (Rule.Expr r) := by
  obtain ⟨-, -, op, w, hop, hw, he⟩ := hb
  rw [he, Operator_pack op w (by omega) hw, Value_pack op w (by omega) hw]

theorem factSorted_ext : ∀ (l1 l2 : List ℕ), factSorted l1 → factSorted l2 →
    (∀ x, x ∈ l1 ↔ x ∈ l2) → l1 = l2 := by
  intro l1
  induction l1 with
  | nil =>
    intro l2 _ _ hm
    cases l2 with
    | nil => rfl
    | cons b t2 => exact absurd ((hm b).mpr (List.mem_cons_self b t2)) (List.not_mem_nil b)
  | cons a t1 ih =>
    intro l2 h1 h2 hm
    cases l2 with
    | nil => exact absurd ((hm a).mp (List.mem_cons_self a t1)) (List.not_mem_nil a)
    | cons b t2 =>
      have hab : a = b := by
        rcases List.mem_cons.mp ((hm a).mp (List.mem_cons_self a t1)) with h | hat2
        · exact h
        · rcases List.mem_cons.mp ((hm b).mpr (List.mem_cons_self b t2)) with h | hbt1
          · exact h.symm
          · have ha' := List.rel_of_pairwise_cons h1 hbt1
            have hb' := List.rel_of_pairwise_cons h2 hat2
            omega
      subst hab
      congr 1
      apply ih t2 (h1.sublist (List.sublist_cons_self a t1)) (h2.sublist (List.sublist_cons_self a t2))
      intro x
      constructor
      · intro hx
        rcases List.mem_cons.mp ((hm x).mp (List.mem_cons_of_mem a hx)) with rfl | h
        · exact absurd (List.rel_of_pairwise_cons h1 hx) (lt_irrefl _)
        · exact h
      · intro hx
        rcases List.mem_cons.mp ((hm x).mpr (List.mem_cons_of_mem a hx)) with rfl | h
        · exact absurd (List.rel_of_pairwise_cons h2 hx) (lt_irrefl _)
        · exact h

theorem match_mem_subset (S T : StateV) (hS : WF S) (hT : WF T)
    (h1 : matchAux T.vx S.vx = .ok true) (h2 : matchAux S.vx T.vx = .ok true) :
    ∀ n ∈ T.vx, n ∈ S.vx := by
  intro n hn
  obtain ⟨t, ht, hf, htop, hrel⟩ := matchAux_true_spec S.vx T.vx h1 n hn
  obtain ⟨u, hu, huf, huop, -⟩ := matchAux_true_spec T.vx S.vx h2 t ht
  have hun : u = n :=
    eq_of_mem_same_fact T.vx hT.sorted u n hu hn (by rw [huf, hf])
  subst hun
  rcases hrel with ⟨-, hv⟩ | ⟨hc, -⟩ | ⟨hc, -⟩
  · have htn : t = u := by
      have hsplitt := rule_split t
      have hsplitn := rule_split u
      have hct := expr_canon t (hS.bounds t ht)
      have hcn := expr_canon u (hT.bounds u hn)
      rw [htop] at hct
      rw [huop] at hcn
      simp only [opEqual] at hct hcn
      omega
    rw [← htn]
    exact ht
  · rw [huop] at hc
    simp [opEqual, opLess] at hc
  · rw [huop] at hc
    simp [opEqual, opGreater] at hc

theorem match_bidi_vx_eq (S T : StateV) (hS : WF S) (hT : WF T)
    (h1 : S.Match T = .ok true) (h2 : T.Match S = .ok true) : S.vx = T.vx := by
  apply factSorted_ext S.vx T.vx hS.sorted hT.sorted
  intro x
  exact ⟨fun hx => match_mem_subset T S hT hS h2 h1 x hx,
         fun hx => match_mem_subset S T hS hT h1 h2 x hx⟩

/-! ## States reachable through the public constructors -/

/-- A state is `Built` when it arises from `StateOf` or from `Add`, `Del`,
`Apply`, `Clone` on already-built states. -/
inductive Built : StateV → Prop
  | stateOf (rules : List String) (s : StateV) (h : StateOf rules = .ok s) : Built s
  | add (s : StateV) (rule : String) (s' : StateV) (hb : Built s)
      (h : s.Add rule = .ok s') : Built s'
  | del (s : StateV) (rule : String) (s' : StateV) (hb : Built s)
      (h : s.Del rule = .ok s') : Built s'
  | applyE (s e s' : StateV) (hb : Built s) (he : Built e)
      (h : s.Apply e = .ok s') : Built s'
  | clone (s : StateV) (hb : Built s) : Built s.Clone

theorem built_WF (s : StateV) (h : Built s) : WF s := by
  induction h with
  | stateOf rules s h => exact StateOf_WF rules s h
  | add s rule s' hb h ih => exact Add_WF s rule s' ih h
  | del s rule s' hb h ih => exact Del_WF s rule s' ih h
  | applyE s e s' hb he h ih ihe => exact Apply_WF s e s' ih ihe h
  | clone s hb ih => exact Clone_WF s ih

/-! ## `Apply` on well-formed operands -/

/-- Every stored entry of the state carries the `=` operator (the shape of
any state produced by `=`-rules and by `Apply` itself). -/
def AllEq (s : StateV) : Prop := ∀ r ∈ s.vx, Expr.Operator (Rule.Expr r) = opEqual

instance decAllEq (s : StateV) : Decidable (AllEq s) :=
  List.decidableBAll (fun r => Expr.Operator (Rule.Expr r) = opEqual) s.vx

theorem load_op_eq (s : StateV) (ha : AllEq s) (f : ℕ) :
    Expr.Operator (s.load f) = opEqual := by
  simp only [StateV.load]
  split
  · rename_i hfind
    obtain ⟨hi, -⟩ := find_true s f hfind
    apply ha
    rw [List.getD_eq_getElem s.vx 0 hi]
    exact List.getElem_mem hi
  · decide

theorem store_AllEq (s : StateV) (k v : ℕ) (ha : AllEq s)
    (hv : Expr.Operator (v % 2 ^ 32) = opEqual) : AllEq (s.store k v) := by
  intro r hr
  rcases mem_store_elim s k v r hr with hmem | heq
  · exact ha r hmem
  · subst heq
    rw [Expr_ruleOf]
    exact hv

theorem exprOf_lt32 (op : ℕ) (x : Frac) (hop : op ≤ 4) (hx : x.pos) :
    exprOf op x < 2 ^ 32 := by
  obtain ⟨w, hw, hsh⟩ := exprOf_shape op x hx
  omega

theorem Operator_exprOf (op : ℕ) (x : Frac) (hop : op ≤ 4) (hx : x.pos) :
    Expr.Operator (exprOf op x) = op := by
  obtain ⟨w, hw, hsh⟩ := exprOf_shape op x hx
  rw [hsh]
  exact Operator_pack op w (by omega) hw

theorem Expr_lt32 (r : ℕ) : Rule.Expr r < 2 ^ 32 :=
  Nat.mod_lt r (by norm_num)

theorem goodKV_of_ruleBound (r : ℕ) (h : ruleBound r) :
    goodKV (Rule.Fact r) (Rule.Expr r) := h

theorem applyAux_spec : ∀ (l : List ℕ) (s : StateV), WF s → AllEq s →
    (∀ r ∈ l, ruleBound r) →
    (∀ r ∈ l, Expr.Operator (Rule.Expr r) = opEqual ∨
       Expr.Operator (Rule.Expr r) = opIncrement ∨
       Expr.Operator (Rule.Expr r) = opDecrement) →
    l.Pairwise (fun a b => Rule.Fact a ≠ Rule.Fact b) →
    ∃ s', applyAux s l = .ok s' ∧ WF s' ∧ AllEq s' ∧
      (∀ f, (∀ r ∈ l, Rule.Fact r ≠ f) → s'.load f = s.load f) ∧
      ∀ elem ∈ l,
        (Expr.Operator (Rule.Expr elem) = opEqual →
          s'.load (Rule.Fact elem) = Rule.Expr elem) ∧
        (Expr.Operator (Rule.Expr elem) = opIncrement →
          s'.load (Rule.Fact elem) =
            exprOf opEqual (fl32F ((Expr.Percent (s.load (Rule.Fact elem))).add
              (Expr.Percent (Rule.Expr elem))))) ∧
        (Expr.Operator (Rule.Expr elem) = opDecrement →
          s'.load (Rule.Fact elem) =
            exprOf opEqual (fl32F ((Expr.Percent (s.load (Rule.Fact elem))).sub
              (Expr.Percent (Rule.Expr elem))))) := by
  intro l
  induction l with
  | nil =>
    intro s hw ha _ _ _
    exact ⟨s, rfl, hw, ha, fun f _ => rfl, fun elem h => absurd h (List.not_mem_nil elem)⟩
  | cons elem rest ih =>
    intro s hw ha hb hops hnd
    have hx_op : Expr.Operator (s.load (Rule.Fact elem)) = opEqual := load_op_eq s ha _
    have hbe := hb elem (List.mem_cons_self elem rest)
    have hb' : ∀ r ∈ rest, ruleBound r := fun r hr => hb r (List.mem_cons_of_mem elem hr)
    have hops' := fun r hr => hops r (List.mem_cons_of_mem elem hr)
    have hnd' := hnd.of_cons
    have hhead : ∀ r ∈ rest, Rule.Fact r ≠ Rule.Fact elem :=
      fun r hr => (List.rel_of_pairwise_cons hnd hr).symm
    simp only [applyAux]
    rw [if_neg (not_not_intro hx_op)]
    rcases hops elem (List.mem_cons_self elem rest) with hE | hI | hD
    · rw [if_pos hE]
      have hkv : goodKV (Rule.Fact elem) (Rule.Expr elem) := goodKV_of_ruleBound elem hbe
      have hw1 := store_WF s _ _ hw hkv
      have ha1 : AllEq (s.store (Rule.Fact elem) (Rule.Expr elem)) := by
        apply store_AllEq s _ _ ha
        rw [Nat.mod_eq_of_lt (Expr_lt32 elem)]
        exact hE
      obtain ⟨s', hrun, hw', ha', hframe, helem⟩ := ih _ hw1 ha1 hb' hops' hnd'
      refine ⟨s', hrun, hw', ha', ?_, ?_⟩
      · intro f hf
        rw [hframe f (fun r hr => hf r (List.mem_cons_of_mem elem hr))]
        exact load_store_other s _ _ f hw hkv
          (Ne.symm (hf elem (List.mem_cons_self elem rest)))
      · intro x hx
        rcases List.mem_cons.mp hx with rfl | hx2
        · refine ⟨fun _ => ?_, fun hq => ?_, fun hq => ?_⟩
          · rw [hframe _ hhead]
            exact load_store_self s _ _ hw hkv
          · rw [hE] at hq
            simp [opEqual, opIncrement] at hq
          · rw [hE] at hq
            simp [opEqual, opDecrement] at hq
        · have hfx := load_store_other s (Rule.Fact elem) (Rule.Expr elem)
            (Rule.Fact x) hw hkv (hhead x hx2)
          obtain ⟨hEq, hInc, hDec⟩ := helem x hx2
          exact ⟨hEq, fun hq => by rw [hInc hq, hfx], fun hq => by rw [hDec hq, hfx]⟩
    · have hneE : ¬ Expr.Operator (Rule.Expr elem) = opEqual := by
        rw [hI]
        simp [opEqual, opIncrement]
      rw [if_neg hneE, if_pos hI, hx_op]
      have hpos : (fl32F ((Expr.Percent (s.load (Rule.Fact elem))).add
          (Expr.Percent (Rule.Expr elem)))).pos :=
        fl32F_pos _ (Frac.pos_add _ _ (Percent_pos _) (Percent_pos _))
      obtain ⟨w, hwle, hsh⟩ := exprOf_shape opEqual _ hpos
      have hkv : goodKV (Rule.Fact elem)
          (exprOf opEqual (fl32F ((Expr.Percent (s.load (Rule.Fact elem))).add
            (Expr.Percent (Rule.Expr elem))))) :=
        ⟨hbe.1, hbe.2.1, opEqual, w, by norm_num [opEqual], hwle, hsh⟩
      have hw1 := store_WF s _ _ hw hkv
      have ha1 : AllEq (s.store (Rule.Fact elem)
          (exprOf opEqual (fl32F ((Expr.Percent (s.load (Rule.Fact elem))).add
            (Expr.Percent (Rule.Expr elem)))))) := by
        apply store_AllEq s _ _ ha
        have hlt : exprOf opEqual (fl32F ((Expr.Percent (s.load (Rule.Fact elem))).add
            (Expr.Percent (Rule.Expr elem)))) < 2 ^ 32 := by
          rw [hsh]
          simp only [opEqual]
          omega
        rw [Nat.mod_eq_of_lt hlt, hsh]
        exact Operator_pack _ _ (by norm_num [opEqual]) hwle
      obtain ⟨s', hrun, hw', ha', hframe, helem⟩ := ih _ hw1 ha1 hb' hops' hnd'
      refine ⟨s', hrun, hw', ha', ?_, ?_⟩
      · intro f hf
        rw [hframe f (fun r hr => hf r (List.mem_cons_of_mem elem hr))]
        exact load_store_other s _ _ f hw hkv
          (Ne.symm (hf elem (List.mem_cons_self elem rest)))
      · intro x hx
        rcases List.mem_cons.mp hx with rfl | hx2
        · refine ⟨fun hq => ?_, fun _ => ?_, fun hq => ?_⟩
          · rw [hI] at hq
            simp [opEqual, opIncrement] at hq
          · rw [hframe _ hhead]
            exact load_store_self s _ _ hw hkv
          · rw [hI] at hq
            simp [opIncrement, opDecrement] at hq
        · have hfx := load_store_other s (Rule.Fact elem) _
            (Rule.Fact x) hw hkv (hhead x hx2)
          obtain ⟨hEq, hInc, hDec⟩ := helem x hx2
          exact ⟨hEq, fun hq => by rw [hInc hq, hfx], fun hq => by rw [hDec hq, hfx]⟩
    · have hneE : ¬ Expr.Operator (Rule.Expr elem) = opEqual := by
        rw [hD]
        simp [opEqual, opDecrement]
      have hneI : ¬ Expr.Operator (Rule.Expr elem) = opIncrement := by
        rw [hD]
        simp [opIncrement, opDecrement]
      rw [if_neg hneE, if_neg hneI, if_pos hD, hx_op]
      have hpos : (fl32F ((Expr.Percent (s.load (Rule.Fact elem))).sub
          (Expr.Percent (Rule.Expr elem)))).pos :=
        fl32F_pos _ (Frac.pos_sub _ _ (Percent_pos _) (Percent_pos _))
      obtain ⟨w, hwle, hsh⟩ := exprOf_shape opEqual _ hpos
      have hkv : goodKV (Rule.Fact elem)
          (exprOf opEqual (fl32F ((Expr.Percent (s.load (Rule.Fact elem))).sub
            (Expr.Percent (Rule.Expr elem))))) :=
        ⟨hbe.1, hbe.2.1, opEqual, w, by norm_num [opEqual], hwle, hsh⟩
      have hw1 := store_WF s _ _ hw hkv
      have ha1 : AllEq (s.store (Rule.Fact elem)
          (exprOf opEqual (fl32F ((Expr.Percent (s.load (Rule.Fact elem))).sub
            (Expr.Percent (Rule.Expr elem)))))) := by
        apply store_AllEq s _ _ ha
        have hlt : exprOf opEqual (fl32F ((Expr.Percent (s.load (Rule.Fact elem))).sub
            (Expr.Percent (Rule.Expr elem)))) < 2 ^ 32 := by
          rw [hsh]
          simp only [opEqual]
          omega
        rw [Nat.mod_eq_of_lt hlt, hsh]
        exact Operator_pack _ _ (by norm_num [opEqual]) hwle
      obtain ⟨s', hrun, hw', ha', hframe, helem⟩ := ih _ hw1 ha1 hb' hops' hnd'
      refine ⟨s', hrun, hw', ha', ?_, ?_⟩
      · intro f hf
        rw [hframe f (fun r hr => hf r (List.mem_cons_of_mem elem hr))]
        exact load_store_other s _ _ f hw hkv
          (Ne.symm (hf elem (List.mem_cons_self elem rest)))
      · intro x hx
        rcases List.mem_cons.mp hx with rfl | hx2
        · refine ⟨fun hq => ?_, fun hq => ?_, fun _ => ?_⟩
          · rw [hD] at hq
            simp [opEqual, opDecrement] at hq
          · rw [hD] at hq
            simp [opIncrement, opDecrement] at hq
          · rw [hframe _ hhead]
            exact load_store_self s _ _ hw hkv
        · have hfx := load_store_other s (Rule.Fact elem) _
            (Rule.Fact x) hw hkv (hhead x hx2)
          obtain ⟨hEq, hInc, hDec⟩ := helem x hx2
          exact ⟨hEq, fun hq => by rw [hInc hq, hfx], fun hq => by rw [hDec hq, hfx]⟩

/-! ## The planner: `Plan`, the pooled graph heap, and `reconstructPlan` -/

/-- An action of the catalogue: `Simulate` returns a fixed
(require, outcome) pair and `Cost()` a float32 cost. -/
structure GAction where
  require : StateV
  outcome : StateV
  cost : Frac

/-- A planner node: the `State` with its embedded `node` bookkeeping.
`parent` and `action` are arena / catalogue indices standing for the Go
pointers (`nil` = `none`); `action` is the action that led to this state. -/
structure PNode where
  hx : ℕ
  vx : List ℕ
  parent : Option ℕ
  action : Option ℕ
  heuristic : Frac
  stateCost : Frac
  totalCost : Frac
  index : ℕ
  visited : Bool

/-- The `State` value carried by a node. -/
def stv (nd : PNode) : StateV := { hx := nd.hx, vx := nd.vx }

/-- Pointer dereference: nodes live in an arena list; out-of-range reads
yield the supplied default node. -/
def getN (d : PNode) (arena : List PNode) (i : ℕ) : PNode := arena.getD i d

/-- `graph.Less`: compare the `totalCost` of two heap slots. -/
def heapLess (d : PNode) (arena : List PNode) (heap : List ℕ) (i j : ℕ) : Bool :=
  decide ((getN d arena (heap.getD i 0)).totalCost.lt
    (getN d arena (heap.getD j 0)).totalCost)

/-- `graph.Swap`: swaps the two heap slots only — the nodes' `index`
fields are not updated. -/
def heapSwap (heap : List ℕ) (i j : ℕ) : List ℕ :=
  (heap.set i (heap.getD j 0)).set j (heap.getD i 0)

/-- `graph.up` sift-up loop (`j` strictly decreases, so the fuel never
runs out when it starts at the heap length + 1). -/
def upAux (d : PNode) (arena : List PNode) : ℕ → List ℕ → ℕ → List ℕ
  | 0, heap, _ => heap
  | fuel + 1, heap, j =>
    let i := (j - 1) / 2
    if i = j || !heapLess d arena heap j i then heap
    else upAux d arena fuel (heapSwap heap i j) i

def heapUp (d : PNode) (arena : List PNode) (heap : List ℕ) (j : ℕ) : List ℕ :=
  upAux d arena (heap.length + 1) heap j

/-- `graph.down` sift-down loop; returns the new heap and the final `i`
(the Go function returns `i > i0`). -/
def downAux (d : PNode) (arena : List PNode) (n : ℕ) : ℕ → List ℕ → ℕ → List ℕ × ℕ
  | 0, heap, i => (heap, i)
  | fuel + 1, heap, i =>
    let j1 := 2 * i + 1
    if n ≤ j1 then (heap, i)
    else
      let j2 := j1 + 1
      let j := if j2 < n && heapLess d arena heap j2 j1 then j2 else j1
      if !heapLess d arena heap j i then (heap, i)
      else downAux d arena n fuel (heapSwap heap i j) j

def heapDown (d : PNode) (arena : List PNode) (heap : List ℕ) (i0 n : ℕ) :
    List ℕ × Bool :=
  let r := downAux d arena n (n + 1) heap i0
  (r.1, decide (i0 < r.2))

/-- `graph.visit` lookup: the side map from a state hash to its node. -/
def visitFind (visit : List (ℕ × ℕ)) (h : ℕ) : Option ℕ :=
  (visit.find? (fun p => p.1 == h)).map (fun p => p.2)

/-- `graph.visit` assignment (`h.visit[k] = v`): the newest binding wins. -/
def visitInsert (visit : List (ℕ × ℕ)) (k v : ℕ) : List (ℕ × ℕ) :=
  (k, v) :: visit

/-- `graph.Push`: record the heap slot in the node's `index`, append,
sift up, and register the node in the visit map. -/
def heapPush (d : PNode) (arena : List PNode) (heap : List ℕ)
    (visit : List (ℕ × ℕ)) (idx : ℕ) :
    List PNode × List ℕ × List (ℕ × ℕ) :=
  let nd := getN d arena idx
  let arena1 := arena.set idx { nd with index := heap.length }
  let heap1 := heap ++ [idx]
  (arena1, heapUp d arena1 heap1 (heap1.length - 1), visitInsert visit nd.hx idx)

/-- `graph.Pop`: swap the root to the back, sift down, detach the last
slot, mark that node visited and re-register it in the visit map. -/
def heapPop (d : PNode) (arena : List PNode) (heap : List ℕ)
    (visit : List (ℕ × ℕ)) :
    Option (List PNode × List ℕ × List (ℕ × ℕ) × ℕ) :=
  if heap.isEmpty then none
  else
    let n := heap.length - 1
    let heap2 := (heapDown d arena (heapSwap heap 0 n) 0 n).1
    let idx := heap2.getD (heap2.length - 1) 0
    let nd := getN d arena idx
    some (arena.set idx { nd with visited := true }, heap2.dropLast,
      visitInsert visit nd.hx idx, idx)

/-- `graph.Fix`: re-establish the heap position of a changed node, starting
from the node's (possibly stale) `index` field. -/
def heapFix (d : PNode) (arena : List PNode) (heap : List ℕ) (idx : ℕ) : List ℕ :=
  let nd := getN d arena idx
  let r := heapDown d arena heap nd.index heap.length
  if r.2 then r.1 else heapUp d arena r.1 nd.index

/-- The relax update of `Plan` (`found && !node.visited && newCost <
node.stateCost`): the code sets `parent`, `stateCost` and `totalCost` —
and nothing else. -/
def relaxNode (nd : PNode) (parentIdx : ℕ) (newCost : Frac) : PNode :=
  { nd with parent := some parentIdx, stateCost := newCost,
            totalCost := fl32F (newCost.add nd.heuristic) }

/-- One catalogue action inside the expansion loop of `Plan`: match the
requirement, clone and apply the outcome, then push / relax / drop. -/
def expandAction (goal : StateV) (d : PNode) (curIdx : ℕ)
    (st : List PNode × List ℕ × List (ℕ × ℕ)) (ai : ℕ) (a : GAction) :
    Except GoapErr (List PNode × List ℕ × List (ℕ × ℕ)) :=
  let arena := st.1
  let cur := getN d arena curIdx
  match (stv cur).Match a.require with
  | .error e => .error e
  | .ok false => .ok st
  | .ok true =>
    match (stv cur).Clone.Apply a.outcome with
    | .error e => .error e
    | .ok ns =>
      let newCost := fl32F (cur.stateCost.add a.cost)
      match visitFind st.2.2 ns.Hash with
      | none =>
        let heuristic := ns.Distance goal
        let nd : PNode :=
          { hx := ns.hx, vx := ns.vx, parent := some curIdx, action := some ai,
            heuristic := heuristic, stateCost := newCost,
            totalCost := fl32F (newCost.add heuristic), index := 0, visited := false }
        .ok (heapPush d (arena ++ [nd]) st.2.1 st.2.2 arena.length)
      | some fidx =>
        let fnode := getN d arena fidx
        if !fnode.visited && decide (newCost.lt fnode.stateCost) then
          let arena1 := arena.set fidx (relaxNode fnode curIdx newCost)
          .ok (arena1, heapFix d arena1 st.2.1 fidx, st.2.2)
        else .ok st

/-- The whole `for _, action := range actions` expansion loop. -/
def expandAll (goal : StateV) (d : PNode) (curIdx : ℕ) :
    List (ℕ × GAction) → List PNode × List ℕ × List (ℕ × ℕ) →
    Except GoapErr (List PNode × List ℕ × List (ℕ × ℕ))
  | [], st => .ok st
  | (ai, a) :: rest, st =>
    match expandAction goal d curIdx st ai a with
    | .error e => .error e
    | .ok st1 => expandAll goal d curIdx rest st1

/-- `reconstructPlan` walk: follow `parent` pointers collecting the nodes'
`action` fields (the start node carries none). -/
def reconAux (d : PNode) (arena : List PNode) : ℕ → Option ℕ → List ℕ → List ℕ
  | 0, _, plan => plan
  | _ + 1, none, plan => plan
  | fuel + 1, some idx, plan =>
    let nd := getN d arena idx
    reconAux d arena fuel nd.parent
      (match nd.action with
       | some ai => plan ++ [ai]
       | none => plan)

/-- `reconstructPlan`: walk up from the goal node, then reverse. -/
def reconstructPlan (d : PNode) (arena : List PNode) (goalIdx : ℕ) : List ℕ :=
  (reconAux d arena (arena.length + 1) (some goalIdx) []).reverse

/-- Index the action catalogue (the loop variable pair of `range`). -/
def withIdx : ℕ → List GAction → List (ℕ × GAction)
  | _, [] => []
  | i, a :: rest => (i, a) :: withIdx (i + 1) rest

/-- The `for heap.Len() > 0` loop of `Plan`, with explicit fuel. -/
def planLoop (goal : StateV) (actions : List (ℕ × GAction)) (d : PNode) :
    ℕ → List PNode → List ℕ → List (ℕ × ℕ) → Except GoapErr (List ℕ)
  | 0, _, _, _ => .error .fuelOut
  | fuel + 1, arena, heap, visit =>
    match heapPop d arena heap visit with
    | none => .error .noPlan
    | some (arena1, heap1, visit1, curIdx) =>
      match (stv (getN d arena1 curIdx)).Match goal with
      | .error e => .error e
      | .ok true => .ok (reconstructPlan d arena1 curIdx)
      | .ok false =>
        match expandAll goal d curIdx actions (arena1, heap1, visit1) with
        | .error e => .error e
        | .ok st => planLoop goal actions d fuel st.1 st.2.1 st.2.2

/-- The seeded start node of `Plan`: the cloned start state with the
heuristic, zero accumulated cost and the zero-valued remaining fields. -/
def startNode (start goal : StateV) : PNode :=
  { hx := start.Clone.hx, vx := start.Clone.vx, parent := none, action := none,
    heuristic := start.Clone.Distance goal, stateCost := Frac.ofInt 0,
    totalCost := Frac.ofInt 0, index := 0, visited := false }

/-- `Plan(start, goal, actions)`: clone the start, seed its node with the
heuristic and zero accumulated cost, push it, and run the loop. -/
def Plan (start goal : StateV) (actions : List GAction) (fuel : ℕ) :
    Except GoapErr (List ℕ) :=
  let d := startNode start goal
  let r := heapPush d [d] [] [] 0
  planLoop goal (withIdx 0 actions) d fuel r.1 r.2.1 r.2.2

/-- Running an action sequence: match each action's requirement against the
state reached so far, then apply its outcome; `false` reports the first
action whose requirement fails. -/
def seqOk (s : StateV) : List GAction → Except GoapErr (Bool × StateV)
  | [] => .ok (true, s)
  | a :: rest =>
    match s.Match a.require with
    | .error e => .error e
    | .ok false => .ok (false, s)
    | .ok true =>
      match s.Apply a.outcome with
      | .error e => .error e
      | .ok s1 => seqOk s1 rest

/-! ## `Apply` as the in-place mutation it is in the source -/

/-- `State.Apply` mutates its receiver entry by entry and returns early on
the first bad entry: the result is the receiver's final contents together
with the error, if any.  (`applyAux` above is the same loop viewed only
through its success path.) -/
def applyMut : StateV → List ℕ → StateV × Option GoapErr
  | s, [] => (s, none)
  | s, elem :: rest =>
    let f := Rule.Fact elem
    let e := Rule.Expr elem
    let x := s.load f
    if Expr.Operator x ≠ opEqual then (s, some (.invalidState f e x))
    else if Expr.Operator e = opEqual then applyMut (s.store f e) rest
    else if Expr.Operator e = opIncrement then
      applyMut (s.store f (exprOf (Expr.Operator x) (fl32F ((Expr.Percent x).add (Expr.Percent e))))) rest
    else if Expr.Operator e = opDecrement then
      applyMut (s.store f (exprOf (Expr.Operator x) (fl32F ((Expr.Percent x).sub (Expr.Percent e))))) rest
    else (s, some (.invalidPredictOp f e))

/-! ## The pooled backing arrays of `State` values -/

/-- The heap of `vx` backing arrays: a `State` value holds an index
(`pointer`) into this arena, as the Go slice header points at its array. -/
structure Mem where
  arrays : List (List ℕ)

/-- A `State` as it exists at runtime: the cached hash plus the pointer to
its entry array. -/
structure StateRef where
  hx : ℕ
  ptr : ℕ

/-- Dereference: the `StateV` value a `StateRef` denotes in a memory. -/
def readSt (m : Mem) (s : StateRef) : StateV :=
  { hx := s.hx, vx := m.arrays.getD s.ptr [] }

/-- `State.Clone`: acquire a fresh array (from the pool, here modelled as a
fresh arena slot — the pool never hands out an array still referenced by a
live `State`), copy the entries, keep the hash. -/
def cloneRef (m : Mem) (s : StateRef) : Mem × StateRef :=
  (⟨m.arrays ++ [m.arrays.getD s.ptr []]⟩, ⟨s.hx, m.arrays.length⟩)

/-- `State.Del` on a `StateRef`: parse, then mutate only the receiver's
own backing array (and its hash copy). -/
def delRef (m : Mem) (t : StateRef) (rule : String) :
    Except ParseErr (Mem × StateRef) :=
  match (readSt m t).Del rule with
  | .error e => .error e
  | .ok s' => .ok (⟨m.arrays.set t.ptr s'.vx⟩, ⟨s'.hx, t.ptr⟩)

/-! ## Soundness of the planner loop -/

/-- The states reachable from `start` by running catalogue actions whose
requirement the current state matches — i.e. states reached by some valid
action sequence. -/
inductive Reachable (start : StateV) (actions : List GAction) : StateV → Prop
  | base : Reachable start actions start
  | step (s s' : StateV) (a : GAction) (ha : a ∈ actions)
      (hm : s.Match a.require = .ok true) (happ : s.Apply a.outcome = .ok s')
      (hs : Reachable start actions s) : Reachable start actions s'

/-- Every node of the arena carries a reachable state. -/
def ArenaOK (start : StateV) (actions : List GAction) (arena : List PNode) : Prop :=
  ∀ nd ∈ arena, Reachable start actions (stv nd)

theorem getN_rel (P : PNode → Prop) (d : PNode) (arena : List PNode) (i : ℕ)
    (hA : ∀ nd ∈ arena, P nd) (hd : P d) : P (getN d arena i) := by
  simp only [getN]
  rcases Nat.lt_or_ge i arena.length with h | h
  · rw [List.getD_eq_getElem arena d h]
    exact hA _ (List.getElem_mem h)
  · rw [List.getD_eq_default arena d h]
    exact hd

theorem arenaOK_set (start : StateV) (actions : List GAction) (arena : List PNode)
    (i : ℕ) (nd : PNode) (hA : ArenaOK start actions arena)
    (hnd : Reachable start actions (stv nd)) :
    ArenaOK start actions (arena.set i nd) := by
  intro x hx
  rcases List.mem_or_eq_of_mem_set hx with hmem | heq
  · exact hA x hmem
  · subst heq
    exact hnd

theorem heapPush_arenaOK (start : StateV) (actions : List GAction) (d : PNode)
    (arena : List PNode) (heap : List ℕ) (visit : List (ℕ × ℕ)) (idx : ℕ)
    (hA : ArenaOK start actions arena) (hd : Reachable start actions (stv d)) :
    ArenaOK start actions (heapPush d arena heap visit idx).1 := by
  simp only [heapPush]
  exact arenaOK_set start actions arena idx _ hA
    (getN_rel (fun nd => Reachable start actions (stv nd)) d arena idx hA hd)

theorem heapPop_arenaOK (start : StateV) (actions : List GAction) (d : PNode)
    (arena : List PNode) (heap : List ℕ) (visit : List (ℕ × ℕ))
    (arena1 : List PNode) (heap1 : List ℕ) (visit1 : List (ℕ × ℕ)) (cur : ℕ)
    (hA : ArenaOK start actions arena) (hd : Reachable start actions (stv d))
    (h : heapPop d arena heap visit = some (arena1, heap1, visit1, cur)) :
    ArenaOK start actions arena1 := by
  simp only [heapPop] at h
  split at h
  · exact absurd h (by simp)
  · injection h with h2
    rw [Prod.mk.injEq] at h2
    obtain ⟨h3, -⟩ := h2
    rw [← h3]
    exact arenaOK_set start actions arena _ _ hA
      (getN_rel (fun nd => Reachable start actions (stv nd)) d arena _ hA hd)

theorem expandAction_arenaOK (start goal : StateV) (actions : List GAction)
    (d : PNode) (curIdx : ℕ) (st st' : List PNode × List ℕ × List (ℕ × ℕ))
    (ai : ℕ) (a : GAction) (hmem : a ∈ actions)
    (hA : ArenaOK start actions st.1) (hd : Reachable start actions (stv d))
    (h : expandAction goal d curIdx st ai a = .ok st') :
    ArenaOK start actions st'.1 := by
  have hcur : Reachable start actions (stv (getN d st.1 curIdx)) :=
    getN_rel (fun nd => Reachable start actions (stv nd)) d st.1 curIdx hA hd
  simp only [expandAction] at h
  split at h
  · exact absurd h (by simp)
  · injection h with h2
    rw [← h2]
    exact hA
  · rename_i hm
    split at h
    · exact absurd h (by simp)
    · rename_i ns happ
      split at h
      · injection h with h2
        rw [← h2]
        apply heapPush_arenaOK start actions d _ _ _ _ _ hd
        intro nd hnd
        rcases List.mem_append.mp hnd with hold | hnew
        · exact hA nd hold
        · rw [List.mem_singleton.mp hnew]
          exact Reachable.step (stv (getN d st.1 curIdx)) ns a hmem hm happ hcur
      · rename_i fidx hfind
        split at h
        · injection h with h2
          rw [← h2]
          apply arenaOK_set start actions st.1 _ _ hA
          exact getN_rel (fun nd => Reachable start actions (stv nd)) d st.1 fidx hA hd
        · injection h with h2
          rw [← h2]
          exact hA

theorem expandAll_arenaOK (start goal : StateV) (actions : List GAction) (d : PNode)
    (curIdx : ℕ) : ∀ (pairs : List (ℕ × GAction))
    (st st' : List PNode × List ℕ × List (ℕ × ℕ)),
    (∀ p ∈ pairs, p.2 ∈ actions) →
    ArenaOK start actions st.1 → Reachable start actions (stv d) →
    expandAll goal d curIdx pairs st = .ok st' → ArenaOK start actions st'.1 := by
  intro pairs
  induction pairs with
  | nil =>
    intro st st' _ hA _ h
    injection h with h2
    rw [← h2]
    exact hA
  | cons p rest ih =>
    intro st st' hmem hA hd h
    simp only [expandAll] at h
    split at h
    · exact absurd h (by simp)
    · rename_i st1 hstep
      exact ih st1 st' (fun q hq => hmem q (List.mem_cons_of_mem p hq))
        (expandAction_arenaOK start goal actions d curIdx st st1 p.1 p.2
          (hmem p (List.mem_cons_self p rest)) hA hd hstep) hd h

theorem withIdx_snd_mem : ∀ (i : ℕ) (l : List GAction) (p : ℕ × GAction),
    p ∈ withIdx i l → p.2 ∈ l := by
  intro i l
  induction l generalizing i with
  | nil => intro p hp; simp [withIdx] at hp
  | cons a rest ih =>
    intro p hp
    simp only [withIdx] at hp
    rcases List.mem_cons.mp hp with rfl | hp2
    · exact List.mem_cons_self a rest
    · exact List.mem_cons_of_mem a (ih (i + 1) p hp2)

theorem planLoop_sound (start goal : StateV) (actions : List GAction)
    (pairs : List (ℕ × GAction)) (d : PNode)
    (hpairs : ∀ p ∈ pairs, p.2 ∈ actions)
    (hd : Reachable start actions (stv d)) :
    ∀ (fuel : ℕ) (arena : List PNode) (heap : List ℕ) (visit : List (ℕ × ℕ))
      (p : List ℕ), ArenaOK start actions arena →
      planLoop goal pairs d fuel arena heap visit = .ok p →
      ∃ s', Reachable start actions s' ∧ s'.Match goal = .ok true := by
  intro fuel
  induction fuel with
  | zero =>
    intro arena heap visit p _ h
    exact absurd h (by simp [planLoop])
  | succ fuel ih =>
    intro arena heap visit p hA h
    simp only [planLoop] at h
    split at h
    · exact absurd h (by simp)
    · rename_i arena1 heap1 visit1 curIdx hpop
      have hA1 : ArenaOK start actions arena1 :=
        heapPop_arenaOK start actions d arena heap visit arena1 heap1 visit1 curIdx hA hd hpop
      split at h
      · exact absurd h (by simp)
      · rename_i hm
        exact ⟨stv (getN d arena1 curIdx),
          getN_rel (fun nd => Reachable start actions (stv nd)) d arena1 curIdx hA1 hd, hm⟩
      · split at h
        · exact absurd h (by simp)
        · rename_i st hexp
          exact ih st.1 st.2.1 st.2.2 p
            (expandAll_arenaOK start goal actions d curIdx pairs _ st hpairs hA1 hd hexp) h

/-- Soundness core of `Plan`: an `ok` answer means a goal-matching state is
reachable by a valid action sequence (not necessarily the returned one). -/
theorem Plan_sound (start goal : StateV) (actions : List GAction) (fuel : ℕ)
    (p : List ℕ) (h : Plan start goal actions fuel = .ok p) :
    ∃ s', Reachable start actions s' ∧ s'.Match goal = .ok true := by
  simp only [Plan] at h
  have hd : Reachable start actions (stv (startNode start goal)) := Reachable.base
  apply planLoop_sound start goal actions (withIdx 0 actions) (startNode start goal)
    (withIdx_snd_mem 0 actions) hd fuel _ _ _ p ?_ h
  apply heapPush_arenaOK start actions (startNode start goal) _ _ _ _ ?_ hd
  intro nd hnd
  rw [List.mem_singleton.mp hnd]
  exact hd

/-! ## Claim theorems -/

/-- Concrete states for the claim instances: the state a `StateOf` call
produces (`emptyState` if parsing failed, which the instances below never
hit). -/
def exState (l : List String) : StateV := (StateOf l).toOption.getD emptyState

/-- A throwaway action used only as a `getD` default. -/
def dummyA : GAction := { require := emptyState, outcome := emptyState, cost := Frac.ofInt 0 }

/-- C3: every `State` reachable through `StateOf`, `Add`, `Del`, `Apply` or
`Clone` satisfies the three container invariants: (I1) at most one entry per
fact, (I2) entries sorted by fact in the one canonical (descending) order —
together: strictly descending facts — and (I3) the cached 32-bit hash equals
the XOR of the entries' hashes. -/
theorem C3_container_invariants (s : StateV) (h : Built s) :
    s.vx.Pairwise (fun a b => Rule.Fact a ≠ Rule.Fact b) ∧
    s.vx.Pairwise (fun a b => Rule.Fact b < Rule.Fact a) ∧
    s.hx = xorHash s.vx ∧ s.hx < 2 ^ 32 := by
  have hw := built_WF s h
  refine ⟨factSorted_imp_ne _ hw.sorted, hw.sorted, hw.hash, ?_⟩
  rw [hw.hash]
  exact xorHash_lt _

theorem C3_container_invariants_witness :
    (exState ["a", "b=2", "c<5"]).vx.Pairwise (fun a b => Rule.Fact a ≠ Rule.Fact b) ∧
    (exState ["a", "b=2", "c<5"]).vx.Pairwise (fun a b => Rule.Fact b < Rule.Fact a) ∧
    (exState ["a", "b=2", "c<5"]).hx = xorHash (exState ["a", "b=2", "c<5"]).vx ∧
    (exState ["a", "b=2", "c<5"]).hx < 2 ^ 32 :=
  C3_container_invariants (exState ["a", "b=2", "c<5"])
    (Built.stateOf ["a", "b=2", "c<5"] _ rfl)

/-- C2 (amended): a pattern fact with no entry in the state is NOT decided
against a virtual `= 0` — the merge runs off the end of the state's entries
and `Match` answers `ok false`; so whenever some pattern entry's fact is
absent from the state, `Match` cannot answer `ok true`. -/
theorem C2_missing_fact_never_matches (S P : StateV) (n : ℕ) (hn : n ∈ P.vx)
    (hmiss : ∀ t ∈ S.vx, Rule.Fact t ≠ Rule.Fact n) : S.Match P ≠ .ok true := by
  intro h
  obtain ⟨t, ht, hf, -⟩ := matchAux_true_spec S.vx P.vx h n hn
  exact hmiss t ht hf

theorem C2_missing_fact_witness :
    emptyState.Match (exState ["!a"]) ≠ .ok true :=
  C2_missing_fact_never_matches emptyState (exState ["!a"])
    ((exState ["!a"]).vx.getD 0 0) (by decide) (by decide)

/-- C2, the claim as stated is false: `'!a'` (which packs as `a = 0`) and
`'b<10'` should both hold of the empty state if an absent fact resolved to
`= 0`, yet `Match` answers `ok false` for both. -/
theorem C2_counterexample :
    (do
      let p ← StateOf ["!a"]
      let q ← StateOf ["b<10"]
      pure (emptyState.Match p, emptyState.Match q) : Except ParseErr _) =
    .ok (.ok false, .ok false) := by decide

/-- C7: the six malformed rule shapes are each rejected with a structured
error carrying the offending rule (the empty string gets the dedicated
empty-rule error), and none yields a `(fact, expr)` pair. -/
theorem C7_parse_rejections :
    parseRule "" = .error .emptyString ∧
    parseRule "!" = .error (.invalidRule "!") ∧
    parseRule "hp " = .error (.invalidOperator ' ' "hp ") ∧
    parseRule "hp>=10" = .error (.invalidValue "=10" "hp>=10") ∧
    parseRule "hp<=10" = .error (.invalidValue "=10" "hp<=10") ∧
    parseRule "abc2" = .error (.invalidOperator '2' "abc2") ∧
    parseRule "hp=2.2.2" = .error (.invalidValue "2.2.2" "hp=2.2.2") := by
  decide

/-- C8: for states built from the rule grammar (through the public
constructors), a bidirectional `Match` forces the two entry lists equal, so
the cached hashes agree. -/
theorem C8_match_antisymm_hash (S T : StateV) (hS : Built S) (hT : Built T)
    (h1 : S.Match T = .ok true) (h2 : T.Match S = .ok true) :
    S.Hash = T.Hash := by
  have hwS := built_WF S hS
  have hwT := built_WF T hT
  have hv := match_bidi_vx_eq S T hwS hwT h1 h2
  show S.hx = T.hx
  rw [hwS.hash, hwT.hash, hv]

theorem C8_match_antisymm_witness :
    (exState ["a", "b"]).Hash = (exState ["b", "a"]).Hash :=
  C8_match_antisymm_hash _ _ (Built.stateOf ["a", "b"] _ rfl)
    (Built.stateOf ["b", "a"] _ rfl) (by decide) (by decide)

/-- C10: `Apply` is not atomic on error: applying `{b=50, a<10}` to the
empty state stores the `b` entry, then fails on the `a<10` effect (`<` is
no effect operator), leaving the receiver's contents and hash changed. -/
theorem C10_apply_not_atomic :
    ∃ E : StateV, StateOf ["b=50", "a<10"] = .ok E ∧
      (emptyState.Apply E).isOk = false ∧
      (applyMut emptyState E.vx).2.isSome = true ∧
      (applyMut emptyState E.vx).1.Hash ≠ emptyState.Hash ∧
      (applyMut emptyState E.vx).1.vx ≠ emptyState.vx := by
  refine ⟨_, rfl, ?_, ?_, ?_, ?_⟩ <;> decide

/-- C6: `Distance` on the spec's boundary cases: `{A}.Distance({A})` is 0
and `{A=100}.Distance({A=10})` is 90 as claimed, but `{A}.Distance({B})`
evaluates to 100, not the claimed 200 — the loop visits only the goal's
entries, so the state's own unmatched fact contributes nothing. -/
theorem C6_distance_boundaries :
    ∃ sA sA100 sA10 sB : StateV,
      StateOf ["A"] = .ok sA ∧ StateOf ["A=100"] = .ok sA100 ∧
      StateOf ["A=10"] = .ok sA10 ∧ StateOf ["B"] = .ok sB ∧
      (sA.Distance sA).qeq (Frac.ofInt 0) ∧
      (sA100.Distance sA10).qeq (Frac.ofInt 90) ∧
      (sA.Distance sB).qeq (Frac.ofInt 100) ∧
      ¬ (sA.Distance sB).qeq (Frac.ofInt 200) := by
  refine ⟨_, _, _, _, rfl, rfl, rfl, rfl, ?_, ?_, ?_, ?_⟩ <;> decide

/-- C4: the relax branch of `Plan` updates the found node's parent, its
accumulated cost and its total cost (and then re-heapifies and releases the
duplicate) — but it never updates the node's `action` field, which keeps
whatever action first created the node. -/
theorem C4_relax_keeps_stale_action (nd : PNode) (p : ℕ) (c : Frac) :
    (relaxNode nd p c).parent = some p ∧ (relaxNode nd p c).stateCost = c ∧
    (relaxNode nd p c).totalCost = fl32F (c.add nd.heuristic) ∧
    (relaxNode nd p c).action = nd.action :=
  ⟨rfl, rfl, rfl, rfl⟩

/-- C5 (amended): on a state whose entries all carry `=` and an effects
state with operators in `{=, +, -}`, `Apply` succeeds and stores for each
`+`/`-` effect the float32 sum/difference of the two percent values, pushed
through `exprOf`'s clamp into [0, 100]: the result carries operator `=` and
a value saturated at 10000 hundredths — but it is the float32-rounded,
truncated value, not the exact `clamp(x.percent ± e.percent, 0, 100)`. -/
theorem C5_apply_saturates_float32 (S E : StateV) (hS : WF S) (hSe : AllEq S)
    (hE : WF E)
    (hops : ∀ r ∈ E.vx, Expr.Operator (Rule.Expr r) = opEqual ∨
      Expr.Operator (Rule.Expr r) = opIncrement ∨
      Expr.Operator (Rule.Expr r) = opDecrement) :
    ∃ S', S.Apply E = .ok S' ∧ ∀ elem ∈ E.vx,
      (Expr.Operator (Rule.Expr elem) = opIncrement →
        S'.load (Rule.Fact elem) =
          exprOf opEqual (fl32F ((Expr.Percent (S.load (Rule.Fact elem))).add
            (Expr.Percent (Rule.Expr elem)))) ∧
        Expr.Operator (S'.load (Rule.Fact elem)) = opEqual ∧
        Expr.Value (S'.load (Rule.Fact elem)) ≤ 10000) ∧
      (Expr.Operator (Rule.Expr elem) = opDecrement →
        S'.load (Rule.Fact elem) =
          exprOf opEqual (fl32F ((Expr.Percent (S.load (Rule.Fact elem))).sub
            (Expr.Percent (Rule.Expr elem)))) ∧
        Expr.Operator (S'.load (Rule.Fact elem)) = opEqual ∧
        Expr.Value (S'.load (Rule.Fact elem)) ≤ 10000) := by
  obtain ⟨S', hrun, hw', ha', hframe, helem⟩ := applyAux_spec E.vx S hS hSe hE.bounds hops
    (factSorted_imp_ne _ hE.sorted)
  refine ⟨S', hrun, ?_⟩
  intro elem he
  obtain ⟨hEq, hInc, hDec⟩ := helem elem he
  constructor
  · intro hq
    have h1 := hInc hq
    have hpos : (fl32F ((Expr.Percent (S.load (Rule.Fact elem))).add
        (Expr.Percent (Rule.Expr elem)))).pos :=
      fl32F_pos _ (Frac.pos_add _ _ (Percent_pos _) (Percent_pos _))
    obtain ⟨w, hwle, hsh⟩ := exprOf_shape opEqual _ hpos
    refine ⟨h1, ?_, ?_⟩
    · rw [h1, hsh]
      exact Operator_pack _ _ (by norm_num [opEqual]) hwle
    · rw [h1, hsh, Value_pack _ _ (by norm_num [opEqual]) hwle]
      exact hwle
  · intro hq
    have h1 := hDec hq
    have hpos : (fl32F ((Expr.Percent (S.load (Rule.Fact elem))).sub
        (Expr.Percent (Rule.Expr elem)))).pos :=
      fl32F_pos _ (Frac.pos_sub _ _ (Percent_pos _) (Percent_pos _))
    obtain ⟨w, hwle, hsh⟩ := exprOf_shape opEqual _ hpos
    refine ⟨h1, ?_, ?_⟩
    · rw [h1, hsh]
      exact Operator_pack _ _ (by norm_num [opEqual]) hwle
    · rw [h1, hsh, Value_pack _ _ (by norm_num [opEqual]) hwle]
      exact hwle

theorem C5_apply_saturates_witness :
    ∃ S', (exState ["a=0.5"]).Apply (exState ["a+0.25"]) = .ok S' ∧
      ∀ elem ∈ (exState ["a+0.25"]).vx,
      (Expr.Operator (Rule.Expr elem) = opIncrement →
        S'.load (Rule.Fact elem) =
          exprOf opEqual (fl32F ((Expr.Percent ((exState ["a=0.5"]).load (Rule.Fact elem))).add
            (Expr.Percent (Rule.Expr elem)))) ∧
        Expr.Operator (S'.load (Rule.Fact elem)) = opEqual ∧
        Expr.Value (S'.load (Rule.Fact elem)) ≤ 10000) ∧
      (Expr.Operator (Rule.Expr elem) = opDecrement →
        S'.load (Rule.Fact elem) =
          exprOf opEqual (fl32F ((Expr.Percent ((exState ["a=0.5"]).load (Rule.Fact elem))).sub
            (Expr.Percent (Rule.Expr elem)))) ∧
        Expr.Operator (S'.load (Rule.Fact elem)) = opEqual ∧
        Expr.Value (S'.load (Rule.Fact elem)) ≤ 10000) :=
  C5_apply_saturates_float32 (exState ["a=0.5"]) (exState ["a+0.25"])
    (StateOf_WF ["a=0.5"] _ rfl) (by decide) (StateOf_WF ["a+0.25"] _ rfl) (by decide)

/-- C5, the claim as stated is false: with `a = 0.06` stored (6 hundredths)
and the effect `a - 0.01` (1 hundredth), the exact
`clamp(x.percent - e.percent, 0, 100)` is 0.05, i.e. value 5 — but the
float32 subtraction `float32(6/100) - float32(1/100)` is slightly below
0.05, and the truncating conversion stores 4. -/
theorem C5_counterexample :
    ((exState ["a=0.06"]).Apply (exState ["a-0.01"])).map
        (fun s => Expr.Value (s.load (factOf "a"))) = .ok 4 ∧
    ((exState ["a=0.06"]).Apply (exState ["a-0.01"])).map
        (fun s => Expr.Value (s.load (factOf "a"))) ≠ .ok 5 := by
  constructor <;> decide

/-- C9: cloning then deleting on the clone leaves the original untouched:
the clone's backing array is a fresh arena slot, so `Del`'s in-place
mutation writes only there, and the original's hash and entries read back
unchanged. -/
theorem C9_clone_isolation (m : Mem) (S : StateRef) (rule : String)
    (m2 : Mem) (T2 : StateRef) (hptr : S.ptr < m.arrays.length)
    (h : delRef (cloneRef m S).1 (cloneRef m S).2 rule = .ok (m2, T2)) :
    readSt m2 S = readSt m S := by
  simp only [cloneRef, delRef] at h
  split at h
  · exact absurd h (by simp)
  · rename_i s' hdel
    injection h with h2
    rw [Prod.mk.injEq] at h2
    obtain ⟨hm2, -⟩ := h2
    subst hm2
    simp only [readSt]
    congr 1
    rw [List.getD_eq_getElem?_getD, List.getD_eq_getElem?_getD]
    rw [List.getElem?_set_ne (by omega), List.getElem?_append_left hptr]

/-- The concrete one-array memory and live state for the C9 instance. -/
def m0 : Mem := { arrays := [(exState ["a", "b"]).vx] }

def S0 : StateRef := { hx := (exState ["a", "b"]).Hash, ptr := 0 }

theorem C9_clone_isolation_witness :
    readSt ((delRef (cloneRef m0 S0).1 (cloneRef m0 S0).2 "a").toOption.getD
      ((cloneRef m0 S0).1, (cloneRef m0 S0).2)).1 S0 = readSt m0 S0 :=
  C9_clone_isolation m0 S0 "a" _ _ (by decide) rfl

/-- The three-action catalogue of the C1 instance: `B` requires `n < 1`,
adds 100 to `n` at cost 5; `S1` has no requirement, adds 50 to `n` at cost
1; `D` requires `n = 100` and adds 100 to `d` at cost 1. -/
def exActs : List GAction :=
  [{ require := exState ["n<1"], outcome := exState ["n+100"], cost := Frac.ofInt 5 },
   { require := emptyState, outcome := exState ["n+50"], cost := Frac.ofInt 1 },
   { require := exState ["n=100"], outcome := exState ["d+100"], cost := Frac.ofInt 1 }]

/-- C1 (amended): the soundness half that does hold — whenever `Plan`
answers `ok`, a goal-matching state is reachable from the start by some
valid action sequence.  The returned sequence itself need not be valid, and
a `no-plan` error is not the only failure mode, so the claim's stronger
statement is false (see the counterexample). -/
theorem C1_plan_ok_goal_reachable (start goal : StateV) (actions : List GAction)
    (fuel : ℕ) (p : List ℕ) (h : Plan start goal actions fuel = .ok p) :
    ∃ s', Reachable start actions s' ∧ s'.Match goal = .ok true :=
  Plan_sound start goal actions fuel p h

theorem C1_plan_ok_witness :
    ∃ s', Reachable (exState ["!n"]) exActs s' ∧
      s'.Match (exState ["d=100"]) = .ok true :=
  C1_plan_ok_goal_reachable (exState ["!n"]) (exState ["d=100"]) exActs 50 [1, 0, 2]
    (by decide)

/-- C1, the claim as stated is false: on this catalogue `Plan` returns the
sequence `[S1, B, D]` (indices `[1, 0, 2]`), which is invalid — after `S1`
the state holds `n = 50`, so `B`'s requirement `n < 1` fails — while the
valid sequence `[S1, S1, D]` reaches the goal (so a `no-plan` answer would
have been wrong too).  The stale-action relax bug of C4 is the cause: the
cheaper path through `S1` re-parents `B`'s node without replacing the
recorded action. -/
theorem C1_counterexample :
    Plan (exState ["!n"]) (exState ["d=100"]) exActs 50 = .ok [1, 0, 2] ∧
    (seqOk (exState ["!n"])
        [exActs.getD 1 dummyA, exActs.getD 0 dummyA, exActs.getD 2 dummyA]).map
      Prod.fst = .ok false ∧
    (seqOk (exState ["!n"])
        [exActs.getD 1 dummyA, exActs.getD 1 dummyA, exActs.getD 2 dummyA]).map
      (fun q => (q.1, q.2.Match (exState ["d=100"]))) = .ok (true, .ok true) := by
  refine ⟨?_, ?_, ?_⟩ <;> decide
